import Mathlib

/-
Verification development for the iterative code-synthesis loop of this
repository (src/code_evolution.py, src/static_analysis.py,
src/execution_module.py).

Python strings are embedded as lists of characters (PyStr).  Python text
operations used by the source (split, strip, splitlines, join, lower,
startswith, substring containment) are given executable models below.
External effects (the generation model, pip, the subprocess runner, the
file system) are supplied as explicit oracle values, and the repository
functions become pure Lean functions of those oracles.
-/

namespace Hardcoders

abbrev PyStr := List Char

/-- Model of Python s.split(sep) for a one-character separator:
splits at every occurrence of the separator, keeping empty fragments,
and always returns at least one fragment. -/
def splitChar (sep : Char) : PyStr → List PyStr
  | [] => [[]]
  | c :: cs =>
    if c = sep then [] :: splitChar sep cs
    else
      match splitChar sep cs with
      | [] => [[c]]
      | f :: rest => (c :: f) :: rest

/-- Model of the Python newline character. -/
def nlChar : Char := '\n'

/-- Model of Python sep.join for a one-character separator. -/
def joinChar (sep : Char) : List PyStr → PyStr
  | [] => []
  | [p] => p
  | p :: q :: rest => p ++ sep :: joinChar sep (q :: rest)

/-- Model of Python newline.join, as used to re-join code lines. -/
def joinNL (parts : List PyStr) : PyStr := joinChar nlChar parts

/-- Model of Python space.join. -/
def joinSpace (parts : List PyStr) : PyStr := joinChar ' ' parts

/-- Model of Python s.splitlines() restricted to newline-separated text:
like splitChar, but a single trailing empty fragment (arising from a
trailing newline) is dropped, and the empty string yields no lines. -/
def pySplitlines (s : PyStr) : List PyStr :=
  let p := splitChar nlChar s
  if p.getLast? = some [] then p.dropLast else p

/-- Model of Python s.startswith(kw): kw is an initial segment of s. -/
def startsList : PyStr → PyStr → Bool
  | [], _ => true
  | _ :: _, [] => false
  | a :: as, b :: bs => decide (a = b) && startsList as bs

/-- Model of Python substring containment (kw in s). -/
def containsSub (sub : PyStr) : PyStr → Bool
  | [] => startsList sub []
  | c :: cs => startsList sub (c :: cs) || containsSub sub cs

/-- Model of Python s.lstrip(). -/
def pyLstrip (s : PyStr) : PyStr := s.dropWhile Char.isWhitespace

/-- Model of Python s.strip(). -/
def pyStrip (s : PyStr) : PyStr :=
  ((s.dropWhile Char.isWhitespace).reverse.dropWhile Char.isWhitespace).reverse

/-- Fuel-driven worker for splitting on a multi-character separator. -/
def splitSubGo (sep : PyStr) : Nat → PyStr → PyStr → List PyStr
  | 0, s, acc => [acc.reverse ++ s]
  | fuel + 1, s, acc =>
    match s with
    | [] => [acc.reverse]
    | c :: cs =>
      if startsList sep (c :: cs) then
        acc.reverse :: splitSubGo sep fuel (List.drop sep.length (c :: cs)) []
      else
        splitSubGo sep fuel cs (c :: acc)

/-- Model of Python s.split(sep) for a multi-character separator
(non-overlapping, leftmost-first). -/
def splitSub (sep s : PyStr) : List PyStr :=
  if sep = [] then [s] else splitSubGo sep (s.length + 1) s []

/-- Worker for whitespace splitting, carrying the current word reversed. -/
def splitWSAux : PyStr → PyStr → List PyStr
  | [], acc => if acc = [] then [] else [acc.reverse]
  | c :: cs, acc =>
    if c.isWhitespace then
      if acc = [] then splitWSAux cs [] else acc.reverse :: splitWSAux cs []
    else splitWSAux cs (c :: acc)

/-- Model of Python s.split() with no argument: split on runs of
whitespace, discarding empty fragments. -/
def splitWS (s : PyStr) : List PyStr := splitWSAux s []

/-- Model of Python s.lower() on the ASCII range. -/
def pyLower (s : PyStr) : PyStr := s.map Char.toLower

/-- Model of Python s.upper() on the ASCII range. -/
def pyUpper (s : PyStr) : PyStr := s.map Char.toUpper

/-- Model of Python w.isdigit(): nonempty and all characters digits. -/
def isDigitWord (w : PyStr) : Bool :=
  !w.isEmpty && w.all Char.isDigit

/-- Lexicographic comparison of code points, as used by Python sorted()
on strings. -/
def lexLeB : PyStr → PyStr → Bool
  | [], _ => true
  | _ :: _, [] => false
  | a :: as, b :: bs => if a = b then lexLeB as bs else decide (a < b)

/-- Model of Python sorted(): sort into code-point order. -/
def pySorted (l : List PyStr) : List PyStr :=
  List.insertionSort (fun a b => lexLeB a b = true) l

/-- Keep one representative per run of equal adjacent elements, as
itertools.groupby followed by taking each group key does. -/
def collapseRuns : List PyStr → List PyStr
  | [] => []
  | [a] => [a]
  | a :: b :: rest =>
    if a = b then collapseRuns (b :: rest) else a :: collapseRuns (b :: rest)

/-! Error signatures and the error-count table
(src/static_analysis.py, class EnhancedErrorHandler). -/

/-- Keyword used by the normalizer to drop line-number words. -/
def lineKw : PyStr := ['l', 'i', 'n', 'e']

/-- Second keyword of the startswith tuple in the normalizer. -/
def atLineKw : PyStr := ['a', 't', ' ', 'l', 'i', 'n', 'e']

/-- True when the normalizer discards this word: a pure-digit word or a
word starting with the line keywords. -/
def droppedWord (w : PyStr) : Bool :=
  isDigitWord w || (startsList lineKw w || startsList atLineKw w)

/-- Specification-side predicate used to state signature stability:
two word lists match position by position, each pair being either equal
words or two words the normalizer discards (numeric or line-prefixed),
so the two messages are identical except for embedded line numbers. -/
def relatedWords : List PyStr → List PyStr → Bool
  | [], [] => true
  | a :: as, b :: bs =>
    (decide (a = b) || (droppedWord a && droppedWord b)) && relatedWords as bs
  | _, _ => false

/-- Embedding of EnhancedErrorHandler._normalize_error
(src/static_analysis.py lines 228-233): lowercase the message, split it
into words, drop numeric words and words starting with the line
keywords, rejoin with single spaces, and key the result by the error
type. -/
def normalize_error (errorType errorMsg : PyStr) : PyStr :=
  let normalized := pyLower errorMsg
  let kept := (splitWS normalized).filter (fun w => !droppedWord w)
  errorType ++ [':'] ++ joinSpace kept

/-- The error_count dict of EnhancedErrorHandler, as an association
list from normalized signature to occurrence count. -/
abbrev ErrCount := List (PyStr × Nat)

/-- Model of error_count.get(key, 0) on the association list. -/
def getCount : ErrCount → PyStr → Nat
  | [], _ => 0
  | (k, v) :: rest, key => if k = key then v else getCount rest key

/-- Model of dict assignment error_count[key] = v. -/
def setCount : ErrCount → PyStr → Nat → ErrCount
  | [], key, v => [(key, v)]
  | (k, w) :: rest, key, v =>
    if k = key then (k, v) :: rest else (k, w) :: setCount rest key v

/-- One structured pylint finding, as consumed by enhance_error. -/
structure PylintErr where
  ptype : PyStr
  line : Int
  message : PyStr
  symbol : PyStr
deriving DecidableEq

/-- One structured bandit finding, as consumed by enhance_error.  The
source reads the line number through a getattr/get chain combined with
Python truthiness, so a stored line number of 0 behaves like a missing
one; effLine below reproduces that. -/
structure BanditIssue where
  line_number : Option Int
  issue_text : PyStr
  test_id : PyStr
deriving DecidableEq

/-- The effective line number of a bandit issue after the or-chain of
falsy fallbacks in the source (0 is falsy in Python). -/
def BanditIssue.effLine (i : BanditIssue) : Option Int :=
  match i.line_number with
  | none => none
  | some v => if v = 0 then none else some v

/-- The static_analysis_results fields read by enhance_error. -/
structure AnalysisResults where
  pylint_errors : List PylintErr
  bandit_issues : List BanditIssue
deriving DecidableEq

/-- Model of the f-string padding f-of-line-padded-to-80: pad the line
with spaces to width 80 (longer lines are left unchanged). -/
def padTo80 (s : PyStr) : PyStr :=
  s ++ List.replicate (80 - s.length) ' '

/-- Model of annotated_lines at a 0-based index: bounds-check the index
and append the comment after padding, exactly as the assignments in
enhance_error do. -/
def annotateAt (lines : List PyStr) (idx : Int) (comment : PyStr) : List PyStr :=
  if 0 ≤ idx ∧ idx < lines.length then
    lines.set idx.toNat (padTo80 (lines.getD idx.toNat []) ++ [' '] ++ comment)
  else lines

/-- Literal pieces of the inline comments built by enhance_error. -/
def pylintCommentFor (e : PylintErr) : PyStr :=
  ['#', ' '] ++ pyUpper e.ptype ++ [':', ' '] ++ e.message ++ [' ', '('] ++ e.symbol ++ [')']

/-- Comment text for a bandit security finding. -/
def banditCommentFor (i : BanditIssue) : PyStr :=
  ("# SECURITY: ".toList) ++ i.issue_text ++ (" (Test ID: ".toList) ++ i.test_id ++ [')']

/-- Comment text for a captured stdout fragment. -/
def stdoutCommentFor (out : PyStr) : PyStr := ("# OUTPUT: ".toList) ++ out

/-- Comment text for a runtime-traceback frame. -/
def runtimeCommentFor (errorType errorMsg : PyStr) : PyStr :=
  ("# RUNTIME ERROR: ".toList) ++ errorType ++ [':', ' '] ++ errorMsg

/-- The keyword searched for when locating print statements. -/
def printKw : PyStr := ['p', 'r', 'i', 'n', 't', '(']

/-- Embedding of the stdout mapping step of enhance_error: pair the
0-based indices of lines containing a print call with the stripped
nonempty stdout lines, in order, stopping at the shorter list. -/
def stdoutMap (codeLines : List PyStr) (stdout : PyStr) : List (Nat × PyStr) :=
  let stdoutLines := (pySplitlines stdout).map pyStrip |>.filter (fun l => l ≠ [])
  let printLocations :=
    (codeLines.enum.filter (fun p => containsSub printKw (pyLstrip p.2))).map (fun p => p.1)
  printLocations.zip stdoutLines

/-- Embedding of the annotation phases of enhance_error
(src/static_analysis.py lines 134-208): pylint findings, bandit
findings, mapped stdout fragments, then runtime-traceback frames, each
appending an inline comment to the implicated line. -/
def annotatedFor (errorType errorMsg : PyStr) (code : PyStr)
    (stdout : Option PyStr) (static : Option AnalysisResults)
    (tbLines : List Int) : List PyStr :=
  let codeLines := pySplitlines code
  let sMap : List (Nat × PyStr) :=
    match stdout with
    | some out => if pyStrip out ≠ [] then stdoutMap codeLines out else []
    | none => []
  let afterPylint :=
    match static with
    | some res =>
      let a1 := res.pylint_errors.foldl (fun acc e =>
        if e.ptype = ("error".toList) ∨ e.ptype = ("warning".toList) then
          annotateAt acc (e.line - 1) (pylintCommentFor e)
        else acc) codeLines
      res.bandit_issues.foldl (fun acc i =>
        match i.effLine with
        | some n => annotateAt acc (n - 1) (banditCommentFor i)
        | none => acc) a1
    | none => codeLines
  let afterStdout := sMap.foldl (fun acc p =>
    annotateAt acc (Int.ofNat p.1) (stdoutCommentFor p.2)) afterPylint
  tbLines.foldl (fun acc n =>
    annotateAt acc (n - 1) (runtimeCommentFor errorType errorMsg)) afterStdout

/-- The recurring-failure header block prepended when a signature has
occurred more than once (src/static_analysis.py lines 211-219). -/
def headerFor (count : Nat) (errorMsg : PyStr) : List PyStr :=
  [['#', ' '] ++ List.replicate 78 '=',
   ("# WARNING: This type of error has occurred ".toList)
     ++ (toString count).toList ++ (" times".toList),
   ("# Consider a fundamentally different approach to fix: ".toList) ++ errorMsg,
   ['#', ' '] ++ List.replicate 78 '=',
   []]

/-- Embedding of EnhancedErrorHandler.enhance_error
(src/static_analysis.py lines 114-221): normalize the error to a
signature, bump its count, annotate the source lines, prepend the
recurring-failure header when the bumped count exceeds one, and return
the joined text together with the updated count table.  The runtime
traceback (ambient sys.exc_info in the source) is passed explicitly as
tbLines. -/
def enhance_error (errorType errorMsg : PyStr) (code : PyStr)
    (stdout : Option PyStr) (static : Option AnalysisResults)
    (tbLines : List Int) (errCount : ErrCount) : PyStr × ErrCount :=
  let errorKey := normalize_error errorType errorMsg
  let errCount2 := setCount errCount errorKey (getCount errCount errorKey + 1)
  let annotated := annotatedFor errorType errorMsg code stdout static tbLines
  let lines :=
    if getCount errCount2 errorKey > 1 then
      headerFor (getCount errCount2 errorKey) errorMsg ++ annotated
    else annotated
  (joinNL lines, errCount2)

/-! Attempt history (src/code_evolution.py: deque(maxlen=history_size)
in CodeEvolutionHandler.__init__, appended by add_attempt). -/

/-- One recorded attempt, as built by CodeEvolutionHandler.add_attempt
(src/code_evolution.py lines 588-595).  The wall-clock timestamp of the
source record is not modelled. -/
structure AttemptRec where
  code : PyStr
  error : PyStr
  stdout : Option PyStr
deriving DecidableEq

/-- Model of appending to a collections.deque with maxlen: the oldest
element is evicted when the capacity would be exceeded. -/
def dequeAppend (maxlen : Nat) (h : List AttemptRec) (a : AttemptRec) : List AttemptRec :=
  let h2 := h ++ [a]
  if h2.length ≤ maxlen then h2 else h2.drop (h2.length - maxlen)

/-- The last n elements of a list (all of it when it is shorter). -/
def lastN (n : Nat) (l : List AttemptRec) : List AttemptRec :=
  l.drop (l.length - n)

/-- Embedding of CodeEvolutionHandler.add_attempt: record code, error
text and captured stdout in the bounded history. -/
def add_attempt (historySize : Nat) (h : List AttemptRec)
    (code error : PyStr) (stdout : Option PyStr) : List AttemptRec :=
  dequeAppend historySize h ⟨code, error, stdout⟩

/-! Dependency installation (src/code_evolution.py lines 443-483 and
src/execution_module.py lines 189-217).  Both versions share the
decision structure modelled here: filter out already-installed names,
return success immediately when nothing is left, otherwise run pip once
and record the new names only on a zero exit; an exception from the
launcher yields exit 1 with the message and no state change.  The
preliminary pip self-upgrade of the code_evolution version does not
touch the installed-package set and is not modelled. -/

/-- Outcome of the one pip invocation, supplied as an oracle. -/
inductive PipOutcome where
  | exit (code : Int) (out err : PyStr)
  | exc (msg : PyStr)
deriving DecidableEq

/-- Result of install_requirements: exit code, stdout text, stderr
text, the new installed set, and whether pip was actually invoked. -/
structure InstallResult where
  exitCode : Int
  stdout : PyStr
  stderr : PyStr
  installed : List PyStr
  invoked : Bool
deriving DecidableEq

/-- Embedding of install_requirements: the installed-package set is the
list of already-recorded names, requirements is the argument list. -/
def install_requirements (pip : PipOutcome) (installed : List PyStr)
    (requirements : List PyStr) : InstallResult :=
  if requirements = [] then
    ⟨0, ("No requirements to install".toList), [], installed, false⟩
  else
    let newReqs := requirements.filter (fun r => ¬ r ∈ installed)
    if newReqs = [] then
      ⟨0, ("All packages already installed".toList), [], installed, false⟩
    else
      match pip with
      | .exit code out err =>
        if code = 0 then ⟨0, out, err, installed ++ newReqs, true⟩
        else ⟨code, out, err, installed, true⟩
      | .exc msg => ⟨1, [], msg, installed, true⟩

/-! Adaptive sampling parameters (src/code_evolution.py lines 546-568
and 657-663).  The source stores floats; the arithmetic is embedded
over the rationals, on which the literals 0.2, 0.01, 0.9, 0.98 are
exact. -/

/-- The parameters dict of CodeEvolutionHandler. -/
structure GenParams where
  temperature : ℚ
  top_p : ℚ
  top_k : ℚ
deriving DecidableEq

/-- Embedding of reset_parameters (src/code_evolution.py 657-663). -/
def reset_parameters : GenParams :=
  { temperature := 1, top_p := 9 / 10, top_k := 50 }

/-- The parameter values assigned when the maximal error count m
exceeds one (src/code_evolution.py lines 559-562). -/
def adjustedParams (m : Nat) : GenParams :=
  { temperature := min 2 (1 + (1 / 5) * ((m - 1 : Nat) : ℚ)),
    top_p := min (49 / 50) (9 / 10 + (1 / 100) * ((m - 1 : Nat) : ℚ)),
    top_k := min ((50 : ℚ) + (m : ℚ) * 10) 100 }

/-- Python max over the dict values, only ever used when nonempty. -/
def maxCount (counts : List Nat) : Nat := counts.foldl max 0

/-- Embedding of get_next_parameters (src/code_evolution.py 546-568):
with no recorded errors the parameters are untouched; otherwise, when
the largest count exceeds one, all three fields are reassigned from the
clamped formulas. -/
def get_next_parameters (counts : List Nat) (p : GenParams) : GenParams :=
  if counts = [] then p
  else if maxCount counts > 1 then adjustedParams (maxCount counts) else p

/-! Code execution (src/code_evolution.py lines 485-544 and
src/execution_module.py lines 219-296).  The compile check, the
subprocess run, and the file system are oracles; the enhanced error
text produced through error_handler.enhance_error is represented by a
constructor tagging its source text. -/

/-- Result of the subprocess.run call, supplied as an oracle. -/
inductive SubprocRes where
  | completed (returncode : Int) (out err : PyStr)
  | timedOut
  | excRaised (msg : PyStr)
deriving DecidableEq

/-- The stderr component of an execution result: either the raw stream
or text produced by error_handler.enhance_error. -/
inductive ErrText where
  | raw (s : PyStr)
  | enhanced (source : PyStr)
deriving DecidableEq

/-- The (returncode, stdout, stderr) triple of execute_code. -/
structure ExecResult where
  exitCode : Int
  stdout : PyStr
  stderr : ErrText
deriving DecidableEq

/-- Model of the finally block of both execute_code versions: when a
temporary file was created and still exists it is unlinked. -/
def finallyCleanup (tempCreated fileExists : Bool) : Bool :=
  if tempCreated && fileExists then false else fileExists

/-- Embedding of CodeEvolutionHandler.execute_code (code_evolution.py
485-544).  compileOk is the outcome of the compile pre-check with
compileMsg its failure text; sub is the subprocess oracle.  The second
component reports whether the temporary source file still exists after
the call (the finally block runs on every path). -/
def CE_execute_code (compileOk : Bool) (compileMsg : PyStr)
    (sub : SubprocRes) : ExecResult × Bool :=
  if !compileOk then
    (⟨1, [], .enhanced compileMsg⟩, finallyCleanup false false)
  else
    match sub with
    | .completed rc out err =>
      if rc ≠ 0 then (⟨1, out, .enhanced err⟩, finallyCleanup true true)
      else (⟨rc, out, .raw err⟩, finallyCleanup true true)
    | .timedOut =>
      (⟨1, [], .enhanced ("Code execution took too long - check for infinite loops or blocking operations".toList)⟩,
       finallyCleanup true true)
    | .excRaised msg =>
      (⟨1, [], .enhanced msg⟩, finallyCleanup true true)

/-- Embedding of Executor.execute_code (execution_module.py 219-296).
Differs from the code_evolution version in that a nonzero subprocess
exit is passed through as the exit code, and a missing interpreter
raises after the temporary file was created. -/
def EX_execute_code (compileOk : Bool) (compileMsg : PyStr)
    (pythonFound : Bool) (sub : SubprocRes) : ExecResult × Bool :=
  if !compileOk then
    (⟨1, [], .enhanced compileMsg⟩, finallyCleanup false false)
  else if !pythonFound then
    (⟨1, [], .enhanced ("Python interpreter not found".toList)⟩, finallyCleanup true true)
  else
    match sub with
    | .completed rc out err =>
      if rc ≠ 0 then (⟨rc, out, .enhanced err⟩, finallyCleanup true true)
      else (⟨rc, out, .raw err⟩, finallyCleanup true true)
    | .timedOut =>
      (⟨1, [], .enhanced ("Code execution timed out - check for infinite loops".toList)⟩,
       finallyCleanup true true)
    | .excRaised msg =>
      (⟨1, [], .enhanced msg⟩, finallyCleanup true true)

/-! Code extraction from a generation response
(src/code_evolution.py lines 298-384, CodeEvolutionHandler.extract_code;
the Executor copy in src/execution_module.py lines 53-139 shares the
block-processing logic; the orchestrator uses the code_evolution one,
which is the version embedded here, applied to the response text). -/

/-- The opening fence with language tag. -/
def pythonFence : PyStr := ("```python".toList)

/-- The plain fence delimiter. -/
def fenceKw : PyStr := ("```".toList)

/-- Python parts[1::2]: the elements at odd indices. -/
def oddIdx : List PyStr → List PyStr
  | [] => []
  | [_] => []
  | _ :: b :: rest => b :: oddIdx rest

/-- Embedding of the block-collection phase of extract_code: python-
tagged fences first; otherwise the text between plain fence pairs;
blocks are stripped and empty ones discarded. -/
def getBlocks (responseText : PyStr) : List PyStr :=
  if containsSub pythonFence responseText then
    (splitSub pythonFence responseText).tail.filterMap (fun part =>
      if containsSub fenceKw part then
        let block := pyStrip ((splitSub fenceKw part).headD [])
        if block ≠ [] then some block else none
      else none)
  else if containsSub fenceKw responseText then
    ((oddIdx (splitSub fenceKw responseText)).map pyStrip).filter (fun b => b ≠ [])
  else []

/-- The keyword opening an import line. -/
def importKw : PyStr := ['i', 'm', 'p', 'o', 'r', 't', ' ']

/-- The keyword opening a from-import line. -/
def fromKw : PyStr := ['f', 'r', 'o', 'm', ' ']

/-- The keyword opening a function definition line. -/
def defKw : PyStr := ['d', 'e', 'f', ' ']

/-- A line the extractor classifies as an import statement. -/
def isImportLine (line : PyStr) : Bool :=
  startsList importKw (pyStrip line) || startsList fromKw (pyStrip line)

/-- A line the extractor classifies as opening a function definition. -/
def isDefLine (line : PyStr) : Bool :=
  startsList defKw (pyStrip line)

/-- Scanner state while walking the lines of one block: the collected
lines of imports, completed function blocks, the open function, and
the non-function lines of this block. -/
structure BlockSt where
  imps : List PyStr
  fns : List PyStr
  cur : List PyStr
  others : List PyStr
deriving DecidableEq

/-- Embedding of the line-classification loop of extract_code (lines
347-365): imports are collected; a def line closes any open function
and opens a new one; lines inside an open function stay with it; other
nonempty non-comment lines are kept as loose block code. -/
def scanLine (st : BlockSt) (line : PyStr) : BlockSt :=
  let stripped := pyStrip line
  if startsList importKw stripped || startsList fromKw stripped then
    { st with imps := st.imps ++ [line] }
  else if startsList defKw stripped then
    if st.cur = [] then { st with cur := [line] }
    else { st with fns := st.fns ++ [joinNL st.cur], cur := [line] }
  else if st.cur ≠ [] then
    { st with cur := st.cur ++ [line] }
  else if stripped ≠ [] && !startsList ['#'] stripped then
    { st with others := st.others ++ [line] }
  else st

/-- A line of a block accounted for by the scanner state: it already
sits inside a completed function block or inside the open function. -/
def lineInFns (st : BlockSt) (x : PyStr) : Prop :=
  (∃ fn ∈ st.fns, x ∈ splitChar nlChar fn) ∨ x ∈ st.cur

/-- Process one block, threading the global import collection and
function-block list: flush the open function, then the loose lines. -/
def scanBlock (acc : List PyStr × List PyStr) (block : PyStr) :
    List PyStr × List PyStr :=
  let lines := splitChar nlChar block
  let st := lines.foldl scanLine ⟨[], acc.2, [], []⟩
  let withCur := if st.cur ≠ [] then st.fns ++ [joinNL st.cur] else st.fns
  let withOthers :=
    if st.others ≠ [] then withCur ++ [joinNL st.others] else withCur
  (acc.1 ++ st.imps, withOthers)

/-- All import lines and all function blocks across the fenced blocks
of a response. -/
def extractPieces (responseText : PyStr) : List PyStr × List PyStr :=
  (getBlocks responseText).foldl scanBlock ([], [])

/-- Embedding of the assembly phase of extract_code (lines 369-378):
the sorted deduplicated imports, an empty separator line when any of
the imports exists, then the function blocks. -/
def finalCode (responseText : PyStr) : List PyStr :=
  let pieces := extractPieces responseText
  (if pieces.1 ≠ [] then pySorted pieces.1.dedup ++ [[]] else []) ++ pieces.2

/-- Embedding of CodeEvolutionHandler.extract_code on response text:
with no collected block the stripped response is returned verbatim;
otherwise the assembled lines are joined, re-split, collapsed by
itertools.groupby, and re-joined. -/
def extract_code (responseText : PyStr) : PyStr :=
  if getBlocks responseText = [] then pyStrip responseText
  else joinNL (collapseRuns (pySplitlines (joinNL (finalCode responseText))))

/-! The attempt orchestrator
(src/code_evolution.py lines 665-818, process_with_reflection).
The generation service, static-analysis gate, installer and runtime of
one attempt are summarized by an oracle event: either the attempt
raised before the local variable code was assigned (invalid chat
response, or extract_code raising on a malformed response), or code was
extracted and cleaned and the attempt then either passed every gate or
failed with an enhanced error text.  The Python local code survives
loop iterations and requirement boundaries, which the codeVar field
reproduces.  Per-requirement resets of error tracking and parameters,
and the stdout local, are not threaded through this state; they are
covered by the component models above. -/

/-- A requirement element as supplied by the caller: a Python string or
a value of some other type (the isinstance check). -/
inductive PyVal where
  | str (s : PyStr)
  | nonStr
deriving DecidableEq

/-- Oracle outcome of one attempt of the retry loop. -/
inductive GenEvent where
  | genFail (errText : PyStr)
  | genCode (code : PyStr) (failure : Option PyStr)
deriving DecidableEq

/-- Orchestrator state: accumulated combined output, the Python local
code, and the bounded attempt history (history_size 5 by default). -/
structure OrchSt where
  combined : PyStr
  codeVar : Option PyStr
  history : List AttemptRec
deriving DecidableEq

/-- The separator appended after each accepted code block. -/
def nlnl : PyStr := ['\n', '\n']

/-- The error field recorded for a passing attempt. -/
def successMsg : PyStr := ("Success - no errors".toList)

/-- Embedding of the inner for-attempt loop of process_with_reflection
for one requirement func over the listed attempt events (the list
length is the attempt budget maxAttempts).  Returns the
requirement_success flag, the number of iterations executed, and the
updated state.  On a failing last attempt the last assigned code is
force-accepted into the combined output (lines 796-800). -/
def processAttempts (func : PyStr) : List GenEvent → OrchSt → Bool × Nat × OrchSt
  | [], st => (false, 0, st)
  | e :: rest, st =>
    match e with
    | .genCode c none =>
      (true, 1,
       { combined := st.combined ++ c ++ nlnl,
         codeVar := some c,
         history := add_attempt 5 st.history c successMsg none })
    | .genCode c (some err) =>
      let st2 : OrchSt :=
        { combined := st.combined, codeVar := some c,
          history := add_attempt 5 st.history c err none }
      if rest = [] then
        (true, 1, { st2 with combined := st2.combined ++ c ++ nlnl })
      else
        let next := processAttempts func rest st2
        (next.1, next.2.1 + 1, next.2.2)
    | .genFail err =>
      let recCode := match st.codeVar with | some c => c | none => func
      let st2 : OrchSt :=
        { st with history := add_attempt 5 st.history recCode err none }
      if rest = [] then
        match st.codeVar with
        | some c => (true, 1, { st2 with combined := st2.combined ++ c ++ nlnl })
        | none => (false, 1, st2)
      else
        let next := processAttempts func rest st2
        (next.1, next.2.1 + 1, next.2.2)

/-- Outcome of walking the requirement list. -/
inductive ReqsOutcome where
  | invalidReq
  | failedReq
  | allDone (st : OrchSt)
deriving DecidableEq

/-- Embedding of the outer for-requirement loop: a non-string or
whitespace-only element raises before its retry loop starts (caught at
the top, yielding None); otherwise the attempt loop runs, and a
requirement that ends without success aborts with None. -/
def processReqs (ev : Nat → List GenEvent) :
    List PyVal → Nat → OrchSt → ReqsOutcome
  | [], _, st => .allDone st
  | r :: rest, idx, st =>
    match r with
    | .nonStr => .invalidReq
    | .str s =>
      if pyStrip s = [] then .invalidReq
      else
        let res := processAttempts s (ev idx) st
        if res.1 then processReqs ev rest (idx + 1) res.2.2 else .failedReq

/-- Observable outcome of process_with_reflection: the empty-list
ValueError propagates; every caught exception and every exhausted
requirement yields None; otherwise the final code string. -/
inductive RunResult where
  | raisedEmptyList
  | returnedNone
  | success (finalCode : PyStr)
deriving DecidableEq

/-- Embedding of the final combination pass (lines 805-814): the
_combine_code generation loop is an oracle from the combined text; its
None result raises (caught, None), and its output is re-extracted and
rejected when empty. -/
def combinePhase (combineOut : PyStr → Option PyStr) (combined : PyStr) : RunResult :=
  match combineOut combined with
  | none => .returnedNone
  | some s =>
    let f := extract_code s
    if f = [] ∨ pyStrip f = [] then .returnedNone else .success f

/-- Embedding of process_with_reflection: reject an empty requirement
list before the try block (the exception propagates), then process the
requirements in order, then run the combination pass on the combined
output. -/
def process_with_reflection (reqs : List PyVal) (ev : Nat → List GenEvent)
    (combineOut : PyStr → Option PyStr) : RunResult :=
  if reqs = [] then .raisedEmptyList
  else
    match processReqs ev reqs 0 ⟨[], none, []⟩ with
    | .invalidReq => .returnedNone
    | .failedReq => .returnedNone
    | .allDone st => combinePhase combineOut st.combined

/-! Supporting lemmas. -/

theorem getCount_setCount_same (ec : ErrCount) (k : PyStr) (v : Nat) :
    getCount (setCount ec k v) k = v := by
  induction ec with
  | nil => simp [setCount, getCount]
  | cons p rest ih =>
    rcases p with ⟨pk, pv⟩
    by_cases h : pk = k
    · subst h
      simp [setCount, getCount]
    · simp only [setCount, if_neg h, getCount]
      exact ih

theorem getCount_setCount_other (ec : ErrCount) (k k2 : PyStr) (v : Nat)
    (h : k2 ≠ k) : getCount (setCount ec k v) k2 = getCount ec k2 := by
  have hk : k ≠ k2 := fun he => h he.symm
  induction ec with
  | nil =>
    simp only [setCount, getCount]
    rw [if_neg hk]
  | cons p rest ih =>
    rcases p with ⟨pk, pv⟩
    by_cases hp : pk = k
    · subst hp
      simp only [setCount, if_pos rfl, getCount]
      rw [if_neg hk, if_neg hk]
    · simp only [setCount, if_neg hp, getCount]
      by_cases hp2 : pk = k2
      · rw [if_pos hp2, if_pos hp2]
      · rw [if_neg hp2, if_neg hp2, ih]

theorem maxCount_nil : maxCount [] = 0 := rfl

theorem get_next_parameters_of_le_one (counts : List Nat) (p : GenParams)
    (h : maxCount counts ≤ 1) : get_next_parameters counts p = p := by
  by_cases hc : counts = []
  · rw [get_next_parameters, if_pos hc]
  · rw [get_next_parameters, if_neg hc, if_neg (by omega)]

theorem get_next_parameters_of_gt_one (counts : List Nat) (p : GenParams)
    (h : 1 < maxCount counts) :
    get_next_parameters counts p = adjustedParams (maxCount counts) := by
  have hc : counts ≠ [] := by
    intro he
    rw [he, maxCount_nil] at h
    omega
  rw [get_next_parameters, if_neg hc, if_pos h]

theorem adjustedParams_mono (m m2 : Nat) (h : m ≤ m2) :
    (adjustedParams m).temperature ≤ (adjustedParams m2).temperature ∧
    (adjustedParams m).top_p ≤ (adjustedParams m2).top_p ∧
    (adjustedParams m).top_k ≤ (adjustedParams m2).top_k := by
  have hc : ((m - 1 : Nat) : ℚ) ≤ ((m2 - 1 : Nat) : ℚ) :=
    Nat.cast_le.mpr (Nat.sub_le_sub_right h 1)
  have hm : ((m : Nat) : ℚ) ≤ ((m2 : Nat) : ℚ) := Nat.cast_le.mpr h
  refine ⟨?_, ?_, ?_⟩
  · exact min_le_min le_rfl (by linarith)
  · exact min_le_min le_rfl (by linarith)
  · exact min_le_min (by linarith) le_rfl

theorem adjustedParams_bounds (m : Nat) :
    reset_parameters.temperature ≤ (adjustedParams m).temperature ∧
    reset_parameters.top_p ≤ (adjustedParams m).top_p ∧
    reset_parameters.top_k ≤ (adjustedParams m).top_k ∧
    (adjustedParams m).temperature ≤ 2 ∧
    (adjustedParams m).top_p ≤ 49 / 50 ∧
    (adjustedParams m).top_k ≤ 100 := by
  have hx : (0 : ℚ) ≤ ((m - 1 : Nat) : ℚ) := Nat.cast_nonneg _
  have hm : (0 : ℚ) ≤ ((m : Nat) : ℚ) := Nat.cast_nonneg _
  simp only [adjustedParams, reset_parameters]
  refine ⟨le_min (by norm_num) (by linarith), le_min (by norm_num) (by linarith),
          le_min (by linarith) (by norm_num),
          min_le_left _ _, min_le_left _ _, min_le_right _ _⟩

/-- C4: monotonic parameters.  With the largest recorded error count at
most 1 the parameters keep their requirement-local defaults; once it
exceeds 1 they are reassigned from clamped formulas that are
non-decreasing in the maximum count, never fall below the defaults, and
never exceed the ceilings 2, 0.98 and 100. -/
theorem C4_monotonic_parameters :
    (∀ counts : List Nat, maxCount counts ≤ 1 →
        get_next_parameters counts reset_parameters = reset_parameters) ∧
    (∀ (counts : List Nat) (p : GenParams), 1 < maxCount counts →
        get_next_parameters counts p = adjustedParams (maxCount counts)) ∧
    (∀ m m2 : Nat, m ≤ m2 →
        (adjustedParams m).temperature ≤ (adjustedParams m2).temperature ∧
        (adjustedParams m).top_p ≤ (adjustedParams m2).top_p ∧
        (adjustedParams m).top_k ≤ (adjustedParams m2).top_k) ∧
    (∀ m : Nat,
        reset_parameters.temperature ≤ (adjustedParams m).temperature ∧
        reset_parameters.top_p ≤ (adjustedParams m).top_p ∧
        reset_parameters.top_k ≤ (adjustedParams m).top_k ∧
        (adjustedParams m).temperature ≤ 2 ∧
        (adjustedParams m).top_p ≤ 49 / 50 ∧
        (adjustedParams m).top_k ≤ 100) :=
  ⟨fun counts => get_next_parameters_of_le_one counts reset_parameters,
   fun counts p => get_next_parameters_of_gt_one counts p,
   adjustedParams_mono,
   adjustedParams_bounds⟩

/-- C4 witness: the properties evaluated at concrete error counts. -/
theorem C4_monotonic_parameters_witness :
    get_next_parameters [1, 1] reset_parameters = reset_parameters ∧
    get_next_parameters [1, 3] reset_parameters = adjustedParams 3 ∧
    ((adjustedParams 2).temperature ≤ (adjustedParams 3).temperature ∧
     (adjustedParams 2).top_p ≤ (adjustedParams 3).top_p ∧
     (adjustedParams 2).top_k ≤ (adjustedParams 3).top_k) :=
  ⟨C4_monotonic_parameters.1 [1, 1] (by decide),
   C4_monotonic_parameters.2.1 [1, 3] reset_parameters (by decide),
   C4_monotonic_parameters.2.2.1 2 3 (by decide)⟩

theorem install_success_covers (o : PipOutcome) (installed reqs : List PyStr)
    (h : (install_requirements o installed reqs).exitCode = 0) :
    ∀ r ∈ reqs, r ∈ (install_requirements o installed reqs).installed := by
  intro r hr
  by_cases h0 : reqs = []
  · subst h0
    simp at hr
  · by_cases h1 : List.filter (fun q => decide (q ∉ installed)) reqs = []
    · have hri : r ∈ installed := by
        simpa using List.filter_eq_nil_iff.mp h1 r hr
      simp only [install_requirements, if_neg h0]
      rw [if_pos h1]
      exact hri
    · rcases o with ⟨code, out, err⟩ | msg
      · by_cases hc : code = 0
        · subst hc
          simp only [install_requirements, if_neg h0]
          rw [if_neg h1]
          by_cases hri : r ∈ installed
          · simp [hri]
          · simp [List.mem_filter, hr, hri]
        · exfalso
          simp only [install_requirements, if_neg h0] at h
          rw [if_neg h1] at h
          simp [hc] at h
      · exfalso
        simp only [install_requirements, if_neg h0] at h
        rw [if_neg h1] at h
        simp at h

theorem install_after_success (o1 o2 : PipOutcome) (installed reqs : List PyStr)
    (h : (install_requirements o1 installed reqs).exitCode = 0) :
    (install_requirements o2 (install_requirements o1 installed reqs).installed reqs).exitCode = 0 ∧
    (install_requirements o2 (install_requirements o1 installed reqs).installed reqs).invoked = false ∧
    (install_requirements o2 (install_requirements o1 installed reqs).installed reqs).installed
      = (install_requirements o1 installed reqs).installed := by
  by_cases h0 : reqs = []
  · subst h0
    simp [install_requirements]
  · have hall := install_success_covers o1 installed reqs h
    set inst1 := (install_requirements o1 installed reqs).installed with hinst
    have hfil : List.filter (fun q => decide (q ∉ inst1)) reqs = [] := by
      refine List.filter_eq_nil_iff.mpr ?_
      intro a ha
      simpa using hall a ha
    simp only [install_requirements, if_neg h0]
    rw [if_pos hfil]
    exact ⟨rfl, rfl, rfl⟩

theorem install_fail_frame (o : PipOutcome) (installed reqs : List PyStr)
    (h : (install_requirements o installed reqs).exitCode ≠ 0) :
    (install_requirements o installed reqs).installed = installed := by
  by_cases h0 : reqs = []
  · subst h0
    simp [install_requirements]
  · by_cases h1 : List.filter (fun q => decide (q ∉ installed)) reqs = []
    · simp only [install_requirements, if_neg h0]
      rw [if_pos h1]
    · rcases o with ⟨code, out, err⟩ | msg
      · by_cases hc : code = 0
        · exfalso
          apply h
          simp only [install_requirements, if_neg h0]
          rw [if_neg h1]
          simp [hc]
        · simp only [install_requirements, if_neg h0]
          rw [if_neg h1]
          simp [hc]
      · simp only [install_requirements, if_neg h0]
        rw [if_neg h1]

/-- C3 counterexample: with a failing installer, the first call invokes
pip, leaves the set unchanged, and the second call with the same list
invokes pip again and returns nonzero — the claim's unconditional
"second call returns exit code 0 without invoking the installer" is
false. -/
theorem C3_idempotent_install_counterexample :
    (install_requirements (PipOutcome.exit 1 [] []) [] [("requests".toList)]).invoked = true ∧
    (install_requirements (PipOutcome.exit 1 [] [])
      (install_requirements (PipOutcome.exit 1 [] []) [] [("requests".toList)]).installed
      [("requests".toList)]).invoked = true ∧
    (install_requirements (PipOutcome.exit 1 [] [])
      (install_requirements (PipOutcome.exit 1 [] []) [] [("requests".toList)]).installed
      [("requests".toList)]).exitCode ≠ 0 := by
  decide

/-- C3 (amended): if the first install call returns exit code 0, a
second call with the same dependency list returns exit code 0 without
invoking the installer and leaves the installed set unchanged; whenever
the installer fails, the installed set is unchanged. -/
theorem C3_idempotent_install (o1 o2 : PipOutcome) (installed reqs : List PyStr) :
    ((install_requirements o1 installed reqs).exitCode = 0 →
      (install_requirements o2 (install_requirements o1 installed reqs).installed reqs).exitCode = 0 ∧
      (install_requirements o2 (install_requirements o1 installed reqs).installed reqs).invoked = false ∧
      (install_requirements o2 (install_requirements o1 installed reqs).installed reqs).installed
        = (install_requirements o1 installed reqs).installed) ∧
    ((install_requirements o1 installed reqs).exitCode ≠ 0 →
      (install_requirements o1 installed reqs).installed = installed) :=
  ⟨install_after_success o1 o2 installed reqs,
   install_fail_frame o1 installed reqs⟩

/-- C3 witness: after a successful install of one package, the second
call with the same list succeeds without invoking pip. -/
theorem C3_idempotent_install_witness :
    (install_requirements (PipOutcome.exit 1 [] [])
      (install_requirements (PipOutcome.exit 0 [] []) [] [("requests".toList)]).installed
      [("requests".toList)]).exitCode = 0 ∧
    (install_requirements (PipOutcome.exit 1 [] [])
      (install_requirements (PipOutcome.exit 0 [] []) [] [("requests".toList)]).installed
      [("requests".toList)]).invoked = false :=
  ⟨((C3_idempotent_install (PipOutcome.exit 0 [] []) (PipOutcome.exit 1 [] [])
      [] [("requests".toList)]).1 (by decide)).1,
   ((C3_idempotent_install (PipOutcome.exit 0 [] []) (PipOutcome.exit 1 [] [])
      [] [("requests".toList)]).1 (by decide)).2.1⟩

/-- C6: cleanup on all paths.  For every compile outcome and every
subprocess outcome (normal exit, timeout, raised exception), the
temporary source file is absent after both execute_code versions
return. -/
theorem C6_cleanup_on_all_paths :
    (∀ (cOk : Bool) (msg : PyStr) (sub : SubprocRes),
        (CE_execute_code cOk msg sub).2 = false) ∧
    (∀ (cOk : Bool) (msg : PyStr) (pf : Bool) (sub : SubprocRes),
        (EX_execute_code cOk msg pf sub).2 = false) := by
  constructor
  · intro cOk msg sub
    cases cOk <;> rcases sub with ⟨rc, out, err⟩ | _ | msg2 <;>
      simp [CE_execute_code, finallyCleanup] <;> split <;> rfl
  · intro cOk msg pf sub
    cases cOk <;> cases pf <;> rcases sub with ⟨rc, out, err⟩ | _ | msg2 <;>
      simp [EX_execute_code, finallyCleanup] <;> split <;> rfl

/-- C10: execution totality.  Both execute_code versions return a
result triple for every oracle outcome; a compile failure, a timeout
and an internal exception each produce exit code 1 with an enhanced
error message, and exit code 0 arises exactly when the subprocess
itself exited with code 0. -/
theorem C10_execution_totality :
    (∀ (cOk : Bool) (msg : PyStr) (sub : SubprocRes),
        ((CE_execute_code cOk msg sub).1.exitCode = 0 ↔
          (cOk = true ∧ ∃ out err, sub = SubprocRes.completed 0 out err)) ∧
        ((EX_execute_code cOk msg true sub).1.exitCode = 0 ↔
          (cOk = true ∧ ∃ out err, sub = SubprocRes.completed 0 out err))) ∧
    (∀ (msg : PyStr) (sub : SubprocRes) (pf : Bool),
        (CE_execute_code false msg sub).1 = ⟨1, [], ErrText.enhanced msg⟩ ∧
        (EX_execute_code false msg pf sub).1 = ⟨1, [], ErrText.enhanced msg⟩) ∧
    (∀ msg : PyStr,
        (CE_execute_code true msg SubprocRes.timedOut).1.exitCode = 1 ∧
        (EX_execute_code true msg true SubprocRes.timedOut).1.exitCode = 1 ∧
        (∃ s, (CE_execute_code true msg SubprocRes.timedOut).1.stderr = ErrText.enhanced s) ∧
        (∃ s, (EX_execute_code true msg true SubprocRes.timedOut).1.stderr = ErrText.enhanced s)) ∧
    (∀ (msg m : PyStr),
        (CE_execute_code true msg (SubprocRes.excRaised m)).1 = ⟨1, [], ErrText.enhanced m⟩ ∧
        (EX_execute_code true msg true (SubprocRes.excRaised m)).1 = ⟨1, [], ErrText.enhanced m⟩) ∧
    (∀ (msg : PyStr) (sub : SubprocRes),
        (EX_execute_code true msg false sub).1.exitCode = 1 ∧
        (∃ s, (EX_execute_code true msg false sub).1.stderr = ErrText.enhanced s)) := by
  refine ⟨?_, ?_, ?_, ?_, ?_⟩
  · intro cOk msg sub
    cases cOk
    · constructor
      · simp [CE_execute_code]
      · simp [EX_execute_code]
    · rcases sub with ⟨rc, out, err⟩ | _ | m
      · by_cases hrc : rc = 0
        · subst hrc
          constructor
          · simp [CE_execute_code]
          · simp [EX_execute_code]
        · constructor
          · simp [CE_execute_code, hrc]
          · simp [EX_execute_code, hrc]
      · constructor
        · simp [CE_execute_code]
        · simp [EX_execute_code]
      · constructor
        · simp [CE_execute_code]
        · simp [EX_execute_code]
  · intro msg sub pf
    cases pf <;> rcases sub with ⟨rc, out, err⟩ | _ | m <;>
      simp [CE_execute_code, EX_execute_code]
  · intro msg
    refine ⟨rfl, rfl, ⟨_, rfl⟩, ⟨_, rfl⟩⟩
  · intro msg m
    exact ⟨rfl, rfl⟩
  · intro msg sub
    rcases sub with ⟨rc, out, err⟩ | _ | m
    · exact ⟨rfl, ⟨_, rfl⟩⟩
    · exact ⟨rfl, ⟨_, rfl⟩⟩
    · exact ⟨rfl, ⟨_, rfl⟩⟩

theorem length_dequeAppend_le (n : Nat) (h : List AttemptRec) (a : AttemptRec) :
    (dequeAppend n h a).length ≤ n ∨ (h ++ [a]).length ≤ n := by
  unfold dequeAppend
  by_cases hl : (h ++ [a]).length ≤ n
  · right
    exact hl
  · left
    rw [if_neg hl, List.length_drop]
    omega

theorem length_dequeAppend (n : Nat) (h : List AttemptRec) (a : AttemptRec) :
    (dequeAppend n h a).length = min n (h.length + 1) := by
  unfold dequeAppend
  by_cases hl : (h ++ [a]).length ≤ n
  · rw [if_pos hl]
    rw [List.length_append] at hl ⊢
    simp at hl ⊢
    omega
  · rw [if_neg hl, List.length_drop]
    rw [List.length_append] at hl ⊢
    simp at hl ⊢
    omega

theorem dequeAppend_eq_lastN (n : Nat) (h : List AttemptRec) (a : AttemptRec) :
    dequeAppend n h a = lastN n (h ++ [a]) := by
  unfold dequeAppend lastN
  by_cases hl : (h ++ [a]).length ≤ n
  · rw [if_pos hl]
    have h0 : (h ++ [a]).length - n = 0 := by omega
    rw [h0, List.drop_zero]
  · rw [if_neg hl]

theorem lastN_absorb (n : Nat) (m xs : List AttemptRec) :
    lastN n (lastN n m ++ xs) = lastN n (m ++ xs) := by
  unfold lastN
  by_cases hm : m.length ≤ n
  · have h0 : m.length - n = 0 := by omega
    rw [h0, List.drop_zero]
  · have hk : m.length - n ≤ m.length := Nat.sub_le _ _
    have hlen : (m.drop (m.length - n)).length = n := by
      rw [List.length_drop]
      omega
    have h1 : (m.drop (m.length - n) ++ xs).length - n = xs.length := by
      rw [List.length_append, hlen]
      omega
    have h2 : (m ++ xs).length - n = (m.length - n) + xs.length := by
      rw [List.length_append]
      omega
    rw [h1, h2, ← List.drop_drop, List.drop_append_of_le_length hk]

theorem foldl_dequeAppend (n : Nat) (h : List AttemptRec) (xs : List AttemptRec)
    (hh : h.length ≤ n) :
    List.foldl (dequeAppend n) h xs = lastN n (h ++ xs) := by
  induction xs generalizing h with
  | nil =>
    rw [List.foldl_nil, List.append_nil]
    unfold lastN
    have h0 : h.length - n = 0 := by omega
    rw [h0, List.drop_zero]
  | cons x xs ih =>
    rw [List.foldl_cons]
    have hle : (dequeAppend n h x).length ≤ n := by
      rw [length_dequeAppend]
      omega
    rw [ih (dequeAppend n h x) hle, dequeAppend_eq_lastN, lastN_absorb,
        List.append_assoc]
    rfl

/-- C2: history bound.  Appending more than n attempts to the bounded
history leaves exactly the n most recent in insertion order, and the
history length never exceeds n after any sequence of appends. -/
theorem C2_history_bound :
    (∀ (n : Nat) (xs : List AttemptRec), n < xs.length →
        (List.foldl (dequeAppend n) [] xs).length = n ∧
        List.foldl (dequeAppend n) [] xs = xs.drop (xs.length - n)) ∧
    (∀ (n : Nat) (h : List AttemptRec) (xs : List AttemptRec), h.length ≤ n →
        (List.foldl (dequeAppend n) h xs).length ≤ n) := by
  constructor
  · intro n xs hlen
    have he := foldl_dequeAppend n [] xs (by simp)
    rw [List.nil_append] at he
    unfold lastN at he
    refine ⟨?_, he⟩
    rw [he, List.length_drop]
    omega
  · intro n h xs hh
    rw [foldl_dequeAppend n h xs hh]
    unfold lastN
    rw [List.length_drop]
    omega

/-- C2 witness: six attempts against the default capacity five retain
the five most recent. -/
theorem C2_history_bound_witness :
    (List.foldl (dequeAppend 5) []
      [⟨['1'], [], none⟩, ⟨['2'], [], none⟩, ⟨['3'], [], none⟩,
       ⟨['4'], [], none⟩, ⟨['5'], [], none⟩, ⟨['6'], [], none⟩]).length = 5 ∧
    List.foldl (dequeAppend 5) []
      [⟨['1'], [], none⟩, ⟨['2'], [], none⟩, ⟨['3'], [], none⟩,
       ⟨['4'], [], none⟩, ⟨['5'], [], none⟩, ⟨['6'], [], none⟩]
      = [⟨['2'], [], none⟩, ⟨['3'], [], none⟩,
         ⟨['4'], [], none⟩, ⟨['5'], [], none⟩, ⟨['6'], [], none⟩] := by
  have h := C2_history_bound.1 5
      [⟨['1'], [], none⟩, ⟨['2'], [], none⟩, ⟨['3'], [], none⟩,
       ⟨['4'], [], none⟩, ⟨['5'], [], none⟩, ⟨['6'], [], none⟩] (by decide)
  exact ⟨h.1, h.2.trans (by decide)⟩

theorem splitWSAux_clean (s : PyStr) :
    ∀ acc : PyStr, (∀ c ∈ acc, c.isWhitespace = false) →
      ∀ w ∈ splitWSAux s acc, w ≠ [] ∧ ∀ c ∈ w, c.isWhitespace = false := by
  induction s with
  | nil =>
    intro acc hacc w hw
    unfold splitWSAux at hw
    by_cases ha : acc = []
    · rw [if_pos ha] at hw
      simp at hw
    · rw [if_neg ha] at hw
      simp only [List.mem_singleton] at hw
      subst hw
      constructor
      · simpa using ha
      · intro c hc
        exact hacc c (List.mem_reverse.mp hc)
  | cons c cs ih =>
    intro acc hacc w hw
    unfold splitWSAux at hw
    by_cases hws : c.isWhitespace
    · rw [if_pos hws] at hw
      by_cases ha : acc = []
      · rw [if_pos ha] at hw
        exact ih [] (by simp) w hw
      · rw [if_neg ha] at hw
        rcases List.mem_cons.mp hw with he | hm
        · subst he
          constructor
          · simpa using ha
          · intro c2 hc2
            exact hacc c2 (List.mem_reverse.mp hc2)
        · exact ih [] (by simp) w hm
    · rw [if_neg hws] at hw
      refine ih (c :: acc) ?_ w hw
      intro c2 hc2
      rcases List.mem_cons.mp hc2 with he | hm
      · subst he
        simpa using hws
      · exact hacc c2 hm

theorem splitWS_clean (s : PyStr) :
    ∀ w ∈ splitWS s, w ≠ [] ∧ ∀ c ∈ w, c.isWhitespace = false :=
  splitWSAux_clean s [] (by simp)

theorem splitWSAux_append_word (w : PyStr) :
    ∀ (s acc : PyStr), (∀ c ∈ w, c.isWhitespace = false) →
      splitWSAux (w ++ s) acc = splitWSAux s (w.reverse ++ acc) := by
  induction w with
  | nil =>
    intro s acc _
    simp
  | cons c w2 ih =>
    intro s acc hw
    have hc : c.isWhitespace = false := hw c (List.mem_cons_self c w2)
    have hstep : splitWSAux ((c :: w2) ++ s) acc = splitWSAux (w2 ++ s) (c :: acc) := by
      show splitWSAux (c :: (w2 ++ s)) acc = _
      rw [splitWSAux, if_neg (by simp [hc])]
    rw [hstep, ih s (c :: acc) (fun c2 hc2 => hw c2 (List.mem_cons_of_mem c hc2))]
    congr 1
    simp

theorem splitWS_joinSpace (ws : List PyStr)
    (hws : ∀ w ∈ ws, w ≠ [] ∧ ∀ c ∈ w, c.isWhitespace = false) :
    splitWS (joinSpace ws) = ws := by
  induction ws with
  | nil => rfl
  | cons w ws2 ih =>
    have hw := hws w (List.mem_cons_self w ws2)
    cases ws2 with
    | nil =>
      show splitWSAux (joinChar ' ' [w]) [] = [w]
      have : joinChar ' ' [w] = w ++ [] := by
        unfold joinChar
        simp
      rw [this, splitWSAux_append_word w [] [] hw.2]
      unfold splitWSAux
      rw [if_neg (by simpa using hw.1)]
      simp
    | cons w2 ws3 =>
      show splitWSAux (joinChar ' ' (w :: w2 :: ws3)) [] = w :: w2 :: ws3
      have hj : joinChar ' ' (w :: w2 :: ws3) = w ++ (' ' :: joinChar ' ' (w2 :: ws3)) :=
        rfl
      rw [hj, splitWSAux_append_word w _ [] hw.2]
      show splitWSAux (' ' :: joinChar ' ' (w2 :: ws3)) (w.reverse ++ []) = _
      rw [splitWSAux]
      rw [if_pos (by decide)]
      rw [if_neg (by simpa using hw.1)]
      have ih3 : splitWSAux (joinChar ' ' (w2 :: ws3)) [] = w2 :: ws3 :=
        ih (fun a ha => hws a (List.mem_cons_of_mem w ha))
      rw [ih3]
      simp

theorem joinSpace_inj (ws1 ws2 : List PyStr)
    (h1 : ∀ w ∈ ws1, w ≠ [] ∧ ∀ c ∈ w, c.isWhitespace = false)
    (h2 : ∀ w ∈ ws2, w ≠ [] ∧ ∀ c ∈ w, c.isWhitespace = false)
    (h : joinSpace ws1 = joinSpace ws2) : ws1 = ws2 := by
  rw [← splitWS_joinSpace ws1 h1, ← splitWS_joinSpace ws2 h2, h]

theorem relatedWords_filter_eq (ws1 ws2 : List PyStr)
    (h : relatedWords ws1 ws2 = true) :
    ws1.filter (fun w => !droppedWord w) = ws2.filter (fun w => !droppedWord w) := by
  induction ws1 generalizing ws2 with
  | nil =>
    cases ws2 with
    | nil => rfl
    | cons b bs => simp [relatedWords] at h
  | cons a as ih =>
    cases ws2 with
    | nil => simp [relatedWords] at h
    | cons b bs =>
      unfold relatedWords at h
      rw [Bool.and_eq_true, Bool.or_eq_true] at h
      rcases h with ⟨hhead, htail⟩
      rcases hhead with he | hd
      · have hab : a = b := by simpa using he
        subst hab
        rw [List.filter_cons, List.filter_cons, ih bs htail]
      · rw [Bool.and_eq_true] at hd
        rw [List.filter_cons, List.filter_cons]
        rw [if_neg (by simp [hd.1]), if_neg (by simp [hd.2])]
        exact ih bs htail

/-- C5 counterexample: the messages "x 1" and "x 2" differ, yet both
normalize to the signature "E:x", so distinct messages do not always
yield distinct signatures. -/
theorem C5_signature_stability_counterexample :
    ("x 1".toList : PyStr) ≠ ("x 2".toList) ∧
    normalize_error ("E".toList) ("x 1".toList)
      = normalize_error ("E".toList) ("x 2".toList) := by
  decide

/-- C5 (amended): two failures of the same kind whose messages agree
word for word after lowercasing, except at positions where both words
are discarded by the normalizer (numeric tokens and line-number words),
produce the same signature; and, in full, two failures of the same
kind produce the same signature exactly when their retained
(non-numeric, non-line, case-normalized) word sequences are equal — so
different messages yield different signatures exactly when their
retained word sequences differ. -/
theorem C5_signature_stability (t msg1 msg2 : PyStr) :
    (relatedWords (splitWS (pyLower msg1)) (splitWS (pyLower msg2)) = true →
      normalize_error t msg1 = normalize_error t msg2) ∧
    (normalize_error t msg1 = normalize_error t msg2 ↔
      (splitWS (pyLower msg1)).filter (fun w => !droppedWord w)
        = (splitWS (pyLower msg2)).filter (fun w => !droppedWord w)) := by
  constructor
  · intro h
    simp only [normalize_error]
    rw [relatedWords_filter_eq _ _ h]
  · constructor
    · intro habs
      simp only [normalize_error] at habs
      have hj : joinSpace ((splitWS (pyLower msg1)).filter (fun w => !droppedWord w))
          = joinSpace ((splitWS (pyLower msg2)).filter (fun w => !droppedWord w)) := by
        have := List.append_cancel_left habs
        simpa using this
      refine joinSpace_inj _ _ ?_ ?_ hj
      · intro w hw
        exact splitWS_clean (pyLower msg1) w (List.mem_of_mem_filter hw)
      · intro w hw
        exact splitWS_clean (pyLower msg2) w (List.mem_of_mem_filter hw)
    · intro hk
      simp only [normalize_error]
      rw [hk]

/-- C5 witness: messages differing only in an embedded line number
share a signature; messages with a dropped word inserted (so equal
retained sequences but different word counts) share a signature; and
messages with different retained words do not. -/
theorem C5_signature_stability_witness :
    normalize_error ("ZeroDivisionError".toList) ("failure at line 12".toList)
      = normalize_error ("ZeroDivisionError".toList) ("failure at line 99".toList) ∧
    normalize_error ("E".toList) ("a 1 b".toList)
      = normalize_error ("E".toList) ("a b".toList) ∧
    normalize_error ("E".toList) ("division by zero".toList)
      ≠ normalize_error ("E".toList) ("index out of range".toList) :=
  ⟨(C5_signature_stability ("ZeroDivisionError".toList)
      ("failure at line 12".toList) ("failure at line 99".toList)).1 (by decide),
   (C5_signature_stability ("E".toList) ("a 1 b".toList) ("a b".toList)).2.mpr
      (by decide),
   fun h =>
     absurd ((C5_signature_stability ("E".toList)
        ("division by zero".toList) ("index out of range".toList)).2.mp h)
       (by decide)⟩

/-- C7: recurrence header.  Every enhance_error call bumps the count of
the incoming error's normalized signature by exactly one and leaves all
other signatures untouched; the returned text is the annotated source
preceded by the recurring-failure header exactly when the bumped count
exceeds one. -/
theorem C7_recurrence_header (t m code : PyStr) (stdout : Option PyStr)
    (static : Option AnalysisResults) (tb : List Int) (ec : ErrCount) :
    getCount (enhance_error t m code stdout static tb ec).2 (normalize_error t m)
      = getCount ec (normalize_error t m) + 1 ∧
    (∀ k, k ≠ normalize_error t m →
      getCount (enhance_error t m code stdout static tb ec).2 k = getCount ec k) ∧
    (0 < getCount ec (normalize_error t m) →
      (enhance_error t m code stdout static tb ec).1
        = joinNL (headerFor (getCount ec (normalize_error t m) + 1) m
            ++ annotatedFor t m code stdout static tb)) ∧
    (getCount ec (normalize_error t m) = 0 →
      (enhance_error t m code stdout static tb ec).1
        = joinNL (annotatedFor t m code stdout static tb)) := by
  have hsame := getCount_setCount_same ec (normalize_error t m)
      (getCount ec (normalize_error t m) + 1)
  refine ⟨?_, ?_, ?_, ?_⟩
  · simp only [enhance_error]
    exact hsame
  · intro k hk
    simp only [enhance_error]
    exact getCount_setCount_other ec (normalize_error t m) k _ hk
  · intro hpos
    simp only [enhance_error, hsame]
    rw [if_pos (by omega)]
  · intro hzero
    simp only [enhance_error, hsame]
    rw [if_neg (by omega)]

/-- C7 witness: a first occurrence records count one with no header; a
second occurrence of the same signature gets the count-two header. -/
theorem C7_recurrence_header_witness :
    getCount (enhance_error ("E".toList) ("boom".toList) ("x = 1".toList)
        none none [] []).2 (normalize_error ("E".toList) ("boom".toList)) = 1 ∧
    (enhance_error ("E".toList) ("boom".toList) ("x = 1".toList) none none []
        [(normalize_error ("E".toList) ("boom".toList), 1)]).1
      = joinNL (headerFor 2 ("boom".toList)
          ++ annotatedFor ("E".toList) ("boom".toList) ("x = 1".toList) none none []) :=
  ⟨(C7_recurrence_header ("E".toList) ("boom".toList) ("x = 1".toList)
      none none [] []).1,
   (C7_recurrence_header ("E".toList) ("boom".toList) ("x = 1".toList)
      none none [] [(normalize_error ("E".toList) ("boom".toList), 1)]).2.2.1
      (by decide)⟩

theorem processAttempts_step_ok (func c : PyStr) (rest : List GenEvent) (st : OrchSt) :
    processAttempts func (GenEvent.genCode c none :: rest) st
      = (true, 1, ⟨st.combined ++ c ++ nlnl, some c,
          add_attempt 5 st.history c successMsg none⟩) := rfl

theorem processAttempts_step_fail (func c err : PyStr) (rest : List GenEvent) (st : OrchSt) :
    processAttempts func (GenEvent.genCode c (some err) :: rest) st
      = if rest = [] then
          (true, 1, ⟨st.combined ++ c ++ nlnl, some c,
            add_attempt 5 st.history c err none⟩)
        else
          ((processAttempts func rest
              ⟨st.combined, some c, add_attempt 5 st.history c err none⟩).1,
           (processAttempts func rest
              ⟨st.combined, some c, add_attempt 5 st.history c err none⟩).2.1 + 1,
           (processAttempts func rest
              ⟨st.combined, some c, add_attempt 5 st.history c err none⟩).2.2) := rfl

theorem processAttempts_allFail (events : List GenEvent) :
    ∀ (func c err : PyStr) (st : OrchSt),
      (∀ e ∈ events, ∃ cd er, e = GenEvent.genCode cd (some er)) →
      events.getLast? = some (GenEvent.genCode c (some err)) →
      (processAttempts func events st).1 = true ∧
      (processAttempts func events st).2.1 = events.length ∧
      (processAttempts func events st).2.2.combined = st.combined ++ c ++ nlnl := by
  induction events with
  | nil =>
    intro func c err st hall hlast
    simp at hlast
  | cons e rest ih =>
    intro func c err st hall hlast
    obtain ⟨cd, er, he⟩ := hall e (List.mem_cons_self e rest)
    subst he
    cases rest with
    | nil =>
      have heq : GenEvent.genCode cd (some er) = GenEvent.genCode c (some err) := by
        simpa using hlast
      rw [GenEvent.genCode.injEq] at heq
      obtain ⟨h1, h2⟩ := heq
      subst h1
      have h3 : er = err := by simpa using h2
      subst h3
      simp [processAttempts]
    | cons e2 rest2 =>
      have hlast2 : (e2 :: rest2).getLast? = some (GenEvent.genCode c (some err)) := by
        rw [← List.getLast?_cons_cons]
        exact hlast
      have ihres := ih func c err
        ⟨st.combined, some cd, add_attempt 5 st.history cd er none⟩
        (fun e2 he2 => hall e2 (List.mem_cons_of_mem _ he2)) hlast2
      rw [processAttempts_step_fail, if_neg (by simp)]
      refine ⟨ihres.1, ?_, ihres.2.2⟩
      rw [List.length_cons, ihres.2.1]

theorem processAttempts_allCode (events : List GenEvent) :
    ∀ (func : PyStr) (st : OrchSt),
      events ≠ [] →
      (∀ e ∈ events, ∃ cd f, e = GenEvent.genCode cd f) →
      (processAttempts func events st).1 = true := by
  induction events with
  | nil =>
    intro func st hne _
    exact absurd rfl hne
  | cons e rest ih =>
    intro func st _ hall
    obtain ⟨cd, f, he⟩ := hall e (List.mem_cons_self e rest)
    subst he
    cases f with
    | none => simp [processAttempts]
    | some er =>
      by_cases hr : rest = []
      · subst hr
        simp [processAttempts]
      · rw [processAttempts_step_fail, if_neg hr]
        exact ih func _ hr (fun e2 he2 => hall e2 (List.mem_cons_of_mem _ he2))

theorem processReqs_allDone (reqs : List PyVal) :
    ∀ (ev : Nat → List GenEvent) (idx : Nat) (st : OrchSt),
      (∀ r ∈ reqs, ∃ s, r = PyVal.str s ∧ pyStrip s ≠ []) →
      (∀ i, ev i ≠ [] ∧ ∀ e ∈ ev i, ∃ cd f, e = GenEvent.genCode cd f) →
      ∃ st2, processReqs ev reqs idx st = ReqsOutcome.allDone st2 := by
  induction reqs with
  | nil =>
    intro ev idx st _ _
    exact ⟨st, rfl⟩
  | cons r rest ih =>
    intro ev idx st hreqs hev
    obtain ⟨s, hr, hs⟩ := hreqs r (List.mem_cons_self r rest)
    subst hr
    have hok := processAttempts_allCode (ev idx) s st (hev idx).1 (hev idx).2
    simp only [processReqs]
    rw [if_neg hs, if_pos hok]
    exact ih ev (idx + 1) _ (fun r2 hr2 => hreqs r2 (List.mem_cons_of_mem _ hr2)) hev

theorem processReqs_head_invalid (v : PyVal) (rest : List PyVal)
    (ev : Nat → List GenEvent) (idx : Nat) (st : OrchSt)
    (hv : v = PyVal.nonStr ∨ ∃ s, v = PyVal.str s ∧ pyStrip s = []) :
    processReqs ev (v :: rest) idx st = ReqsOutcome.invalidReq := by
  rcases hv with hv | ⟨s, hv, hs⟩
  · subst hv
    rfl
  · subst hv
    simp only [processReqs]
    rw [if_pos hs]

theorem processReqs_append_invalid (pre : List PyVal) :
    ∀ (v : PyVal) (rest : List PyVal) (ev : Nat → List GenEvent) (idx : Nat) (st : OrchSt),
      (∀ r ∈ pre, ∃ s, r = PyVal.str s ∧ pyStrip s ≠ []) →
      (∀ i, ev i ≠ [] ∧ ∀ e ∈ ev i, ∃ cd f, e = GenEvent.genCode cd f) →
      (v = PyVal.nonStr ∨ ∃ s, v = PyVal.str s ∧ pyStrip s = []) →
      processReqs ev (pre ++ v :: rest) idx st = ReqsOutcome.invalidReq := by
  induction pre with
  | nil =>
    intro v rest ev idx st _ _ hv
    exact processReqs_head_invalid v rest ev idx st hv
  | cons r pre2 ih =>
    intro v rest ev idx st hpre hev hv
    obtain ⟨s, hr, hs⟩ := hpre r (List.mem_cons_self r pre2)
    subst hr
    have hok := processAttempts_allCode (ev idx) s st (hev idx).1 (hev idx).2
    simp only [List.cons_append, processReqs]
    rw [if_neg hs, if_pos hok]
    exact ih v rest ev (idx + 1) _
      (fun r2 hr2 => hpre r2 (List.mem_cons_of_mem _ hr2)) hev hv

/-- C1: forced acceptance.  For a requirement whose every attempt
produces code that fails, the retry loop runs for exactly the full
attempt budget, the requirement is marked done, and the code of the
last attempt is appended to the combined output; a run whose
requirements all behave this way still reaches the combination phase
instead of aborting. -/
theorem C1_forced_acceptance :
    (∀ (func c err : PyStr) (events : List GenEvent) (st : OrchSt),
      (∀ e ∈ events, ∃ cd er, e = GenEvent.genCode cd (some er)) →
      events.getLast? = some (GenEvent.genCode c (some err)) →
      (processAttempts func events st).1 = true ∧
      (processAttempts func events st).2.1 = events.length ∧
      (processAttempts func events st).2.2.combined = st.combined ++ c ++ nlnl) ∧
    (∀ (reqs : List PyVal) (ev : Nat → List GenEvent) (co : PyStr → Option PyStr),
      reqs ≠ [] →
      (∀ r ∈ reqs, ∃ s, r = PyVal.str s ∧ pyStrip s ≠ []) →
      (∀ i, ev i ≠ [] ∧ ∀ e ∈ ev i, ∃ cd er, e = GenEvent.genCode cd (some er)) →
      ∃ st2, processReqs ev reqs 0 ⟨[], none, []⟩ = ReqsOutcome.allDone st2 ∧
        process_with_reflection reqs ev co = combinePhase co st2.combined) := by
  constructor
  · intro func c err events st hall hlast
    exact processAttempts_allFail events func c err st hall hlast
  · intro reqs ev co hne hreqs hev
    have hev2 : ∀ i, ev i ≠ [] ∧ ∀ e ∈ ev i, ∃ cd f, e = GenEvent.genCode cd f := by
      intro i
      refine ⟨(hev i).1, ?_⟩
      intro e he
      obtain ⟨cd, er, hc⟩ := (hev i).2 e he
      exact ⟨cd, some er, hc⟩
    obtain ⟨st2, hdone⟩ := processReqs_allDone reqs ev 0 ⟨[], none, []⟩ hreqs hev2
    refine ⟨st2, hdone, ?_⟩
    simp only [process_with_reflection]
    rw [if_neg hne, hdone]

/-- C1 witness: two failing attempts at budget two force-accept the
second attempt's code, and a one-requirement run of failing attempts
reaches the combination phase. -/
theorem C1_forced_acceptance_witness :
    ((processAttempts ("f".toList)
        [GenEvent.genCode ("a".toList) (some ("x".toList)),
         GenEvent.genCode ("b".toList) (some ("y".toList))] ⟨[], none, []⟩).1 = true ∧
     (processAttempts ("f".toList)
        [GenEvent.genCode ("a".toList) (some ("x".toList)),
         GenEvent.genCode ("b".toList) (some ("y".toList))] ⟨[], none, []⟩).2.1 = 2 ∧
     (processAttempts ("f".toList)
        [GenEvent.genCode ("a".toList) (some ("x".toList)),
         GenEvent.genCode ("b".toList) (some ("y".toList))] ⟨[], none, []⟩).2.2.combined
       = ([] : PyStr) ++ ("b".toList) ++ nlnl) ∧
    (∃ st2, processReqs (fun _ => [GenEvent.genCode ("c".toList) (some ("z".toList))])
        [PyVal.str ("r".toList)] 0 ⟨[], none, []⟩ = ReqsOutcome.allDone st2 ∧
      process_with_reflection [PyVal.str ("r".toList)]
        (fun _ => [GenEvent.genCode ("c".toList) (some ("z".toList))]) (fun _ => none)
        = combinePhase (fun _ => none) st2.combined) := by
  constructor
  · exact C1_forced_acceptance.1 ("f".toList) ("b".toList) ("y".toList)
      [GenEvent.genCode ("a".toList) (some ("x".toList)),
       GenEvent.genCode ("b".toList) (some ("y".toList))] ⟨[], none, []⟩
      (by
        intro e he
        fin_cases he
        · exact ⟨_, _, rfl⟩
        · exact ⟨_, _, rfl⟩)
      (by decide)
  · exact C1_forced_acceptance.2 [PyVal.str ("r".toList)]
      (fun _ => [GenEvent.genCode ("c".toList) (some ("z".toList))]) (fun _ => none)
      (by decide)
      (by
        intro r hr
        fin_cases hr
        exact ⟨_, rfl, by decide⟩)
      (by
        intro i
        refine ⟨by simp, ?_⟩
        intro e he
        fin_cases he
        exact ⟨_, _, rfl⟩)

/-- C8 counterexample: a requirement whose every attempt raises before
any code is extracted (an extraction failure on each attempt) makes the
whole run return None — so an extraction failure can be fatal to the
run, contrary to the claim. -/
theorem C8_fatal_conditions_counterexample :
    process_with_reflection [PyVal.str ("r".toList)]
      (fun _ => [GenEvent.genFail ("bad response".toList),
                 GenEvent.genFail ("bad response".toList)])
      (fun _ => none) = RunResult.returnedNone := by
  decide

/-- C8 (amended): an empty requirement list is rejected by a
propagating exception before any loop; a non-string or blank
requirement element is rejected as soon as it is reached, before its
retry loop, and yields None; and extraction, analysis, install, compile,
runtime and timeout failures of attempts that produced code are never
fatal — the run always reaches the combination phase.  (When every
attempt of a requirement fails before code is assigned, the run can
return None, which the counterexample records.) -/
theorem C8_fatal_conditions :
    (∀ (ev : Nat → List GenEvent) (co : PyStr → Option PyStr),
        process_with_reflection [] ev co = RunResult.raisedEmptyList) ∧
    (∀ (v : PyVal) (rest : List PyVal) (ev : Nat → List GenEvent) (idx : Nat) (st : OrchSt),
        (v = PyVal.nonStr ∨ ∃ s, v = PyVal.str s ∧ pyStrip s = []) →
        processReqs ev (v :: rest) idx st = ReqsOutcome.invalidReq) ∧
    (∀ (pre : List PyVal) (v : PyVal) (rest : List PyVal) (ev : Nat → List GenEvent)
        (co : PyStr → Option PyStr),
        (∀ r ∈ pre, ∃ s, r = PyVal.str s ∧ pyStrip s ≠ []) →
        (∀ i, ev i ≠ [] ∧ ∀ e ∈ ev i, ∃ cd f, e = GenEvent.genCode cd f) →
        (v = PyVal.nonStr ∨ ∃ s, v = PyVal.str s ∧ pyStrip s = []) →
        process_with_reflection (pre ++ v :: rest) ev co = RunResult.returnedNone) ∧
    (∀ (reqs : List PyVal) (ev : Nat → List GenEvent) (co : PyStr → Option PyStr),
        reqs ≠ [] →
        (∀ r ∈ reqs, ∃ s, r = PyVal.str s ∧ pyStrip s ≠ []) →
        (∀ i, ev i ≠ [] ∧ ∀ e ∈ ev i, ∃ cd f, e = GenEvent.genCode cd f) →
        ∃ st2, processReqs ev reqs 0 ⟨[], none, []⟩ = ReqsOutcome.allDone st2 ∧
          process_with_reflection reqs ev co = combinePhase co st2.combined) := by
  refine ⟨?_, ?_, ?_, ?_⟩
  · intro ev co
    rfl
  · intro v rest ev idx st hv
    exact processReqs_head_invalid v rest ev idx st hv
  · intro pre v rest ev co hpre hev hv
    have hinv := processReqs_append_invalid pre v rest ev 0 ⟨[], none, []⟩ hpre hev hv
    simp only [process_with_reflection]
    rw [if_neg (by simp), hinv]
  · intro reqs ev co hne hreqs hev
    obtain ⟨st2, hdone⟩ := processReqs_allDone reqs ev 0 ⟨[], none, []⟩ hreqs hev
    refine ⟨st2, hdone, ?_⟩
    simp only [process_with_reflection]
    rw [if_neg hne, hdone]

/-- C8 witness: the empty list raises; a non-string element is
rejected; a blank element after a passing requirement yields None; a
run of valid requirements with code-producing attempts reaches the
combination phase. -/
theorem C8_fatal_conditions_witness :
    process_with_reflection [] (fun _ => []) (fun _ => none)
      = RunResult.raisedEmptyList ∧
    processReqs (fun _ => []) [PyVal.nonStr] 0 ⟨[], none, []⟩
      = ReqsOutcome.invalidReq ∧
    process_with_reflection [PyVal.str ("a".toList), PyVal.str (" ".toList)]
      (fun _ => [GenEvent.genCode ("c".toList) none]) (fun _ => none)
      = RunResult.returnedNone ∧
    (∃ st2, processReqs (fun _ => [GenEvent.genCode ("c".toList) none])
        [PyVal.str ("a".toList)] 0 ⟨[], none, []⟩ = ReqsOutcome.allDone st2 ∧
      process_with_reflection [PyVal.str ("a".toList)]
        (fun _ => [GenEvent.genCode ("c".toList) none]) (fun _ => none)
        = combinePhase (fun _ => none) st2.combined) := by
  refine ⟨C8_fatal_conditions.1 _ _,
          C8_fatal_conditions.2.1 PyVal.nonStr [] _ 0 _ (Or.inl rfl), ?_, ?_⟩
  · exact C8_fatal_conditions.2.2.1 [PyVal.str ("a".toList)] (PyVal.str (" ".toList)) []
      (fun _ => [GenEvent.genCode ("c".toList) none]) (fun _ => none)
      (by
        intro r hr
        fin_cases hr
        exact ⟨_, rfl, by decide⟩)
      (by
        intro i
        refine ⟨by simp, ?_⟩
        intro e he
        fin_cases he
        exact ⟨_, _, rfl⟩)
      (Or.inr ⟨_, rfl, by decide⟩)
  · exact C8_fatal_conditions.2.2.2 [PyVal.str ("a".toList)]
      (fun _ => [GenEvent.genCode ("c".toList) none]) (fun _ => none)
      (by decide)
      (by
        intro r hr
        fin_cases hr
        exact ⟨_, rfl, by decide⟩)
      (by
        intro i
        refine ⟨by simp, ?_⟩
        intro e he
        fin_cases he
        exact ⟨_, _, rfl⟩)

theorem splitChar_ne_nil (sep : Char) (s : PyStr) : splitChar sep s ≠ [] := by
  cases s with
  | nil => simp [splitChar]
  | cons c cs =>
    unfold splitChar
    by_cases hc : c = sep
    · rw [if_pos hc]
      simp
    · rw [if_neg hc]
      cases hrec : splitChar sep cs with
      | nil => simp
      | cons f rest => simp

theorem mem_splitChar_not_sep (sep : Char) (s : PyStr) :
    ∀ w ∈ splitChar sep s, sep ∉ w := by
  induction s with
  | nil =>
    intro w hw
    simp [splitChar] at hw
    subst hw
    simp
  | cons c cs ih =>
    intro w hw
    unfold splitChar at hw
    by_cases hc : c = sep
    · rw [if_pos hc] at hw
      rcases List.mem_cons.mp hw with he | hm
      · subst he
        simp
      · exact ih w hm
    · rw [if_neg hc] at hw
      cases hrec : splitChar sep cs with
      | nil => exact absurd hrec (splitChar_ne_nil sep cs)
      | cons f rest =>
        rw [hrec] at hw
        rcases List.mem_cons.mp hw with he | hm
        · subst he
          intro hmem
          rcases List.mem_cons.mp hmem with he2 | hm2
          · exact hc he2.symm
          · exact ih f (by rw [hrec]; exact List.mem_cons_self f rest) hm2
        · exact ih w (by rw [hrec]; exact List.mem_cons_of_mem f hm)

theorem splitChar_cons (sep c : Char) (cs : PyStr) :
    splitChar sep (c :: cs)
      = if c = sep then [] :: splitChar sep cs
        else
          match splitChar sep cs with
          | [] => [[c]]
          | f :: rest => (c :: f) :: rest := rfl

theorem splitChar_append_sep (sep : Char) (p t : PyStr) :
    splitChar sep (p ++ sep :: t) = splitChar sep p ++ splitChar sep t := by
  induction p with
  | nil =>
    show splitChar sep (sep :: t) = splitChar sep [] ++ splitChar sep t
    rw [splitChar_cons, if_pos rfl]
    rfl
  | cons c p2 ih =>
    show splitChar sep (c :: (p2 ++ sep :: t)) = splitChar sep (c :: p2) ++ splitChar sep t
    by_cases hc : c = sep
    · rw [splitChar_cons, if_pos hc, ih, splitChar_cons, if_pos hc]
      rfl
    · rw [splitChar_cons, if_neg hc, ih, splitChar_cons, if_neg hc]
      cases hrec : splitChar sep p2 with
      | nil => exact absurd hrec (splitChar_ne_nil sep p2)
      | cons f rest => rfl

theorem splitChar_of_not_sep (sep : Char) (s : PyStr) (h : sep ∉ s) :
    splitChar sep s = [s] := by
  induction s with
  | nil => rfl
  | cons c cs ih =>
    have hc : ¬ c = sep := fun he => h (by rw [he]; exact List.mem_cons_self _ _)
    unfold splitChar
    rw [if_neg hc, ih (fun hm => h (List.mem_cons_of_mem c hm))]

theorem splitChar_joinChar (sep : Char) (parts : List PyStr) (h : parts ≠ []) :
    splitChar sep (joinChar sep parts) = parts.flatMap (splitChar sep) := by
  induction parts with
  | nil => exact absurd rfl h
  | cons p parts2 ih =>
    cases parts2 with
    | nil => simp [joinChar]
    | cons q rest =>
      show splitChar sep (p ++ sep :: joinChar sep (q :: rest)) = _
      rw [splitChar_append_sep, ih (by simp)]
      simp

theorem splitChar_joinChar_clean (sep : Char) (parts : List PyStr)
    (h : parts ≠ []) (hcl : ∀ p ∈ parts, sep ∉ p) :
    splitChar sep (joinChar sep parts) = parts := by
  rw [splitChar_joinChar sep parts h]
  induction parts with
  | nil => rfl
  | cons p parts2 ih =>
    rw [List.flatMap_cons, splitChar_of_not_sep sep p (hcl p (List.mem_cons_self p parts2))]
    by_cases hp2 : parts2 = []
    · subst hp2
      rfl
    · rw [ih hp2 (fun q hq => hcl q (List.mem_cons_of_mem p hq))]
      rfl

theorem collapseRuns_cons_cons (a b : PyStr) (rest : List PyStr) :
    collapseRuns (a :: b :: rest)
      = if a = b then collapseRuns (b :: rest) else a :: collapseRuns (b :: rest) := rfl

theorem mem_collapseRuns (l : List PyStr) : ∀ a ∈ l, a ∈ collapseRuns l := by
  induction l with
  | nil => simp
  | cons x l2 ih =>
    intro a ha
    cases l2 with
    | nil => simpa [collapseRuns] using ha
    | cons y l3 =>
      unfold collapseRuns
      by_cases hxy : x = y
      · rw [if_pos hxy]
        rcases List.mem_cons.mp ha with he | hm
        · subst he
          rw [hxy]
          exact ih y (List.mem_cons_self y l3)
        · exact ih a hm
      · rw [if_neg hxy]
        rcases List.mem_cons.mp ha with he | hm
        · subst he
          exact List.mem_cons_self a _
        · exact List.mem_cons_of_mem x (ih a hm)

theorem collapseRuns_nodup_append (xs : List PyStr) :
    ∀ ys : List PyStr, xs.Nodup →
      (∀ a, xs.getLast? = some a → ys.head? ≠ some a) →
      collapseRuns (xs ++ ys) = xs ++ collapseRuns ys := by
  induction xs with
  | nil =>
    intro ys _ _
    rfl
  | cons x xs2 ih =>
    intro ys hnd hdisj
    cases xs2 with
    | nil =>
      cases ys with
      | nil => rfl
      | cons y ys2 =>
        have hxy : ¬ x = y := by
          intro he
          exact hdisj x rfl (by rw [List.head?_cons, he])
        show collapseRuns (x :: y :: ys2) = [x] ++ collapseRuns (y :: ys2)
        rw [collapseRuns_cons_cons, if_neg hxy]
        rfl
    | cons x2 xs3 =>
      have hx : ¬ x = x2 := by
        intro he
        rw [he] at hnd
        exact (List.nodup_cons.mp hnd).1 (List.mem_cons_self x2 xs3)
      show collapseRuns (x :: (x2 :: xs3 ++ ys)) = x :: (x2 :: xs3 ++ collapseRuns ys)
      have hrec := ih ys (List.nodup_cons.mp hnd).2
        (fun a ha => hdisj a (by rw [← ha, List.getLast?_cons_cons]))
      rw [show x :: (x2 :: xs3 ++ ys) = x :: x2 :: (xs3 ++ ys) from rfl]
      rw [collapseRuns_cons_cons, if_neg hx]
      rw [show (x2 :: xs3) ++ ys = x2 :: (xs3 ++ ys) from rfl] at hrec
      rw [hrec]

theorem mem_dropLast_of_ne_nil (l : List PyStr) (x : PyStr)
    (hlast : l.getLast? = some []) (hx : x ≠ []) (hm : x ∈ l) :
    x ∈ l.dropLast := by
  have hl : l ≠ [] := by
    intro he
    rw [he] at hlast
    simp at hlast
  have hdecomp : l.dropLast ++ [l.getLast hl] = l := List.dropLast_append_getLast hl
  have hlv : l.getLast hl = [] := by
    have := List.getLast?_eq_getLast l hl
    rw [this] at hlast
    simpa using hlast
  rw [← hdecomp] at hm
  rcases List.mem_append.mp hm with h1 | h2
  · exact h1
  · exfalso
    apply hx
    rw [hlv] at h2
    simpa using h2

theorem def_not_import (s : PyStr) (h : startsList defKw s = true) :
    (startsList importKw s || startsList fromKw s) = false := by
  cases s with
  | nil => exact absurd h (by decide)
  | cons c cs =>
    simp only [defKw, startsList, Bool.and_eq_true, decide_eq_true_eq] at h
    rw [← h.1]
    simp [importKw, fromKw, startsList]

theorem isImportLine_nil : isImportLine ([] : PyStr) = false := rfl

theorem splitChar_joinNL_clean (parts : List PyStr) (h : parts ≠ [])
    (hcl : ∀ p ∈ parts, nlChar ∉ p) :
    splitChar nlChar (joinNL parts) = parts :=
  splitChar_joinChar_clean nlChar parts h hcl

theorem scanLine_imps (st : BlockSt) (line : PyStr) :
    (scanLine st line).imps
      = st.imps ++ (if isImportLine line then [line] else []) := by
  unfold scanLine
  by_cases h1 : (startsList importKw (pyStrip line) || startsList fromKw (pyStrip line)) = true
  · have hImp : isImportLine line = true := by simpa [isImportLine] using h1
    rw [if_pos h1, if_pos hImp]
  · have hImp : ¬ isImportLine line = true := by simpa [isImportLine] using h1
    rw [if_neg h1, if_neg hImp]
    by_cases h2 : startsList defKw (pyStrip line) = true
    · rw [if_pos h2]
      by_cases h3 : st.cur = []
      · rw [if_pos h3]
        simp
      · rw [if_neg h3]
        simp
    · rw [if_neg h2]
      by_cases h4 : st.cur ≠ []
      · rw [if_pos h4]
        simp
      · rw [if_neg h4]
        by_cases h5 : (pyStrip line ≠ [] && !startsList ['#'] (pyStrip line)) = true
        · rw [if_pos h5]
          simp
        · rw [if_neg h5]
          simp

theorem scanLine_main (st : BlockSt) (line : PyStr)
    (hcur : ∀ l ∈ st.cur, nlChar ∉ l) (hline : nlChar ∉ line) :
    (∀ l ∈ (scanLine st line).cur, nlChar ∉ l) ∧
    (∀ fn ∈ st.fns, fn ∈ (scanLine st line).fns) ∧
    (∀ x, lineInFns st x → lineInFns (scanLine st line) x) ∧
    (isDefLine line = true → lineInFns (scanLine st line) line) := by
  unfold scanLine
  by_cases h1 : (startsList importKw (pyStrip line) || startsList fromKw (pyStrip line)) = true
  · rw [if_pos h1]
    refine ⟨hcur, fun fn h => h, fun x hx => hx, ?_⟩
    intro hdef
    have := def_not_import (pyStrip line) hdef
    rw [this] at h1
    exact absurd h1 (by decide)
  · rw [if_neg h1]
    by_cases h2 : startsList defKw (pyStrip line) = true
    · rw [if_pos h2]
      by_cases h3 : st.cur = []
      · rw [if_pos h3]
        refine ⟨?_, fun fn h => h, ?_, ?_⟩
        · intro l hl
          have : l = line := by simpa using hl
          rw [this]
          exact hline
        · intro x hx
          rcases hx with ⟨fn, hf, hm⟩ | hcx
          · exact Or.inl ⟨fn, hf, hm⟩
          · rw [h3] at hcx
            simp at hcx
        · intro _
          exact Or.inr (by simp [lineInFns])
      · rw [if_neg h3]
        refine ⟨?_, ?_, ?_, ?_⟩
        · intro l hl
          have : l = line := by simpa using hl
          rw [this]
          exact hline
        · intro fn h
          exact List.mem_append_left _ h
        · intro x hx
          rcases hx with ⟨fn, hf, hm⟩ | hcx
          · exact Or.inl ⟨fn, List.mem_append_left _ hf, hm⟩
          · refine Or.inl ⟨joinNL st.cur, List.mem_append_right _ (by simp), ?_⟩
            rw [splitChar_joinNL_clean st.cur h3 hcur]
            exact hcx
        · intro _
          exact Or.inr (by simp [lineInFns])
    · rw [if_neg h2]
      have hnotdef : ¬ isDefLine line = true := by
        simpa [isDefLine] using h2
      by_cases h4 : st.cur ≠ []
      · rw [if_pos h4]
        refine ⟨?_, fun fn h => h, ?_, fun hdef => absurd hdef hnotdef⟩
        · intro l hl
          rcases List.mem_append.mp hl with hm | hm
          · exact hcur l hm
          · have : l = line := by simpa using hm
            rw [this]
            exact hline
        · intro x hx
          rcases hx with ⟨fn, hf, hm⟩ | hcx
          · exact Or.inl ⟨fn, hf, hm⟩
          · exact Or.inr (List.mem_append_left _ hcx)
      · rw [if_neg h4]
        have hcnil : st.cur = [] := by simpa using h4
        by_cases h5 : (pyStrip line ≠ [] && !startsList ['#'] (pyStrip line)) = true
        · rw [if_pos h5]
          refine ⟨?_, fun fn h => h, ?_, fun hdef => absurd hdef hnotdef⟩
          · intro l hl
            rw [hcnil] at hl
            simp at hl
          · intro x hx
            rcases hx with ⟨fn, hf, hm⟩ | hcx
            · exact Or.inl ⟨fn, hf, hm⟩
            · rw [hcnil] at hcx
              simp at hcx
        · rw [if_neg h5]
          exact ⟨hcur, fun fn h => h, fun x hx => hx,
                 fun hdef => absurd hdef hnotdef⟩

theorem foldl_scanLine_main (lines : List PyStr) :
    ∀ st : BlockSt, (∀ l ∈ st.cur, nlChar ∉ l) → (∀ l ∈ lines, nlChar ∉ l) →
      (∀ l ∈ (lines.foldl scanLine st).cur, nlChar ∉ l) ∧
      (∀ fn ∈ st.fns, fn ∈ (lines.foldl scanLine st).fns) ∧
      (∀ x, lineInFns st x → lineInFns (lines.foldl scanLine st) x) ∧
      (∀ x ∈ lines, isDefLine x = true → lineInFns (lines.foldl scanLine st) x) := by
  induction lines with
  | nil =>
    intro st hcur _
    exact ⟨hcur, fun fn h => h, fun x hx => hx, by simp⟩
  | cons y ls ih =>
    intro st hcur hlines
    have hy : nlChar ∉ y := hlines y (List.mem_cons_self y ls)
    have step := scanLine_main st y hcur hy
    have ihres := ih (scanLine st y) step.1
      (fun l hl => hlines l (List.mem_cons_of_mem y hl))
    refine ⟨ihres.1, ?_, ?_, ?_⟩
    · intro fn h
      exact ihres.2.1 fn (step.2.1 fn h)
    · intro x hx
      exact ihres.2.2.1 x (step.2.2.1 x hx)
    · intro x hx hdef
      rcases List.mem_cons.mp hx with he | hm
      · subst he
        exact ihres.2.2.1 x (step.2.2.2 hdef)
      · exact ihres.2.2.2 x hm hdef

theorem foldl_scanLine_imps (lines : List PyStr) :
    ∀ st : BlockSt,
      (lines.foldl scanLine st).imps = st.imps ++ lines.filter isImportLine := by
  induction lines with
  | nil =>
    intro st
    simp
  | cons y ls ih =>
    intro st
    rw [List.foldl_cons, ih (scanLine st y), scanLine_imps, List.filter_cons]
    by_cases hy : isImportLine y = true
    · rw [if_pos hy, if_pos hy]
      simp
    · rw [if_neg hy, if_neg hy]
      simp

theorem scanBlock_main (acc : List PyStr × List PyStr) (block : PyStr) :
    (scanBlock acc block).1
      = acc.1 ++ (splitChar nlChar block).filter isImportLine ∧
    (∀ fn ∈ acc.2, fn ∈ (scanBlock acc block).2) ∧
    (∀ x ∈ splitChar nlChar block, isDefLine x = true →
        ∃ fn ∈ (scanBlock acc block).2, x ∈ splitChar nlChar fn) := by
  have hlines : ∀ l ∈ splitChar nlChar block, nlChar ∉ l :=
    mem_splitChar_not_sep nlChar block
  have hmain := foldl_scanLine_main (splitChar nlChar block)
    ⟨[], acc.2, [], []⟩ (by simp) hlines
  have himp := foldl_scanLine_imps (splitChar nlChar block) ⟨[], acc.2, [], []⟩
  set st := (splitChar nlChar block).foldl scanLine ⟨[], acc.2, [], []⟩ with hst
  have hfn_mono : ∀ fn ∈ st.fns, fn ∈ (scanBlock acc block).2 := by
    intro fn h
    simp only [scanBlock]
    rw [← hst]
    by_cases hc : st.cur ≠ []
    · rw [if_pos hc]
      by_cases ho : st.others ≠ []
      · rw [if_pos ho]
        exact List.mem_append_left _ (List.mem_append_left _ h)
      · rw [if_neg ho]
        exact List.mem_append_left _ h
    · rw [if_neg hc]
      by_cases ho : st.others ≠ []
      · rw [if_pos ho]
        exact List.mem_append_left _ h
      · rw [if_neg ho]
        exact h
  have hcur_in : st.cur ≠ [] → joinNL st.cur ∈ (scanBlock acc block).2 := by
    intro hc
    simp only [scanBlock]
    rw [← hst]
    rw [if_pos hc]
    by_cases ho : st.others ≠ []
    · rw [if_pos ho]
      exact List.mem_append_left _ (List.mem_append_right _ (by simp))
    · rw [if_neg ho]
      exact List.mem_append_right _ (by simp)
  refine ⟨?_, ?_, ?_⟩
  · simp only [scanBlock]
    rw [← hst, himp]
    simp
  · intro fn h
    refine hfn_mono fn ?_
    exact hmain.2.1 fn h
  · intro x hx hdef
    have hinf := hmain.2.2.2 x hx hdef
    rcases hinf with ⟨fn, hf, hm⟩ | hcx
    · exact ⟨fn, hfn_mono fn hf, hm⟩
    · have hc : st.cur ≠ [] := by
        intro he
        rw [he] at hcx
        simp at hcx
      refine ⟨joinNL st.cur, hcur_in hc, ?_⟩
      rw [splitChar_joinNL_clean st.cur hc hmain.1]
      exact hcx

theorem foldl_scanBlock_main (blocks : List PyStr) :
    ∀ acc : List PyStr × List PyStr,
      (blocks.foldl scanBlock acc).1
        = acc.1 ++ blocks.flatMap (fun b => (splitChar nlChar b).filter isImportLine) ∧
      (∀ fn ∈ acc.2, fn ∈ (blocks.foldl scanBlock acc).2) ∧
      (∀ b ∈ blocks, ∀ x ∈ splitChar nlChar b, isDefLine x = true →
          ∃ fn ∈ (blocks.foldl scanBlock acc).2, x ∈ splitChar nlChar fn) := by
  induction blocks with
  | nil =>
    intro acc
    refine ⟨by simp, fun fn h => h, by simp⟩
  | cons b bs ih =>
    intro acc
    have step := scanBlock_main acc b
    have ihres := ih (scanBlock acc b)
    refine ⟨?_, ?_, ?_⟩
    · rw [List.foldl_cons, ihres.1, step.1, List.flatMap_cons, List.append_assoc]
    · intro fn h
      rw [List.foldl_cons]
      exact ihres.2.1 fn (step.2.1 fn h)
    · intro b2 hb2 x hx hdef
      rw [List.foldl_cons]
      rcases List.mem_cons.mp hb2 with he | hm
      · subst he
        obtain ⟨fn, hf, hxm⟩ := step.2.2 x hx hdef
        exact ⟨fn, ihres.2.1 fn hf, hxm⟩
      · exact ihres.2.2 b2 hm x hx hdef

theorem extractPieces_imps (r : PyStr) :
    (extractPieces r).1
      = (getBlocks r).flatMap (fun b => (splitChar nlChar b).filter isImportLine) := by
  have h := (foldl_scanBlock_main (getBlocks r) ([], [])).1
  simpa [extractPieces] using h

theorem extractPieces_defs (r : PyStr) :
    ∀ b ∈ getBlocks r, ∀ x ∈ splitChar nlChar b, isDefLine x = true →
      ∃ fn ∈ (extractPieces r).2, x ∈ splitChar nlChar fn := by
  have h := (foldl_scanBlock_main (getBlocks r) ([], [])).2.2
  simpa [extractPieces] using h

theorem imports_clean (r : PyStr) :
    ∀ i ∈ (extractPieces r).1, i ≠ [] ∧ nlChar ∉ i := by
  intro i hi
  rw [extractPieces_imps] at hi
  obtain ⟨b, _, hif⟩ := List.mem_flatMap.mp hi
  have hmem := List.mem_filter.mp hif
  constructor
  · intro he
    rw [he] at hmem
    rw [isImportLine_nil] at hmem
    exact absurd hmem.2 (by decide)
  · exact mem_splitChar_not_sep nlChar b i hmem.1

theorem flatMap_splitChar_clean (l : List PyStr) (h : ∀ p ∈ l, nlChar ∉ p) :
    l.flatMap (splitChar nlChar) = l := by
  induction l with
  | nil => rfl
  | cons p ps ih =>
    rw [List.flatMap_cons, splitChar_of_not_sep nlChar p (h p (List.mem_cons_self p ps)),
        ih (fun q hq => h q (List.mem_cons_of_mem p hq))]
    rfl

theorem impSec_mem (r : PyStr) :
    ∀ i, i ∈ pySorted (extractPieces r).1.dedup ↔ i ∈ (extractPieces r).1 := by
  intro i
  unfold pySorted
  exact (List.perm_insertionSort _ _).mem_iff.trans List.mem_dedup

theorem impSec_nodup (r : PyStr) : (pySorted (extractPieces r).1.dedup).Nodup := by
  unfold pySorted
  exact (List.perm_insertionSort _ _).symm.nodup (List.nodup_dedup _)

theorem impSec_clean (r : PyStr) :
    ∀ i ∈ pySorted (extractPieces r).1.dedup, i ≠ [] ∧ nlChar ∉ i := by
  intro i hi
  exact imports_clean r i ((impSec_mem r i).mp hi)

theorem impSec_ne_nil (r : PyStr) (h : (extractPieces r).1 ≠ []) :
    pySorted (extractPieces r).1.dedup ≠ [] := by
  intro he
  obtain ⟨a, ha⟩ := List.exists_mem_of_ne_nil (extractPieces r).1 h
  have ha2 : a ∈ pySorted (extractPieces r).1.dedup := (impSec_mem r a).mpr ha
  rw [he] at ha2
  simp at ha2

theorem finalCode_structure (r : PyStr) :
    ∃ rest,
      collapseRuns (pySplitlines (joinNL (finalCode r)))
        = pySorted (extractPieces r).1.dedup ++ rest ∧
      (∀ x, x ≠ [] → x ∈ (extractPieces r).2.flatMap (splitChar nlChar) → x ∈ rest) := by
  by_cases himps : (extractPieces r).1 = []
  · have hfc : finalCode r = (extractPieces r).2 := by
      simp only [finalCode]
      rw [if_neg (by simp [himps])]
      rfl
    have himp2 : pySorted (extractPieces r).1.dedup = [] := by
      rw [himps]
      rfl
    by_cases hfns : (extractPieces r).2 = []
    · refine ⟨[], ?_, ?_⟩
      · rw [hfc, hfns, himp2]
        decide
      · intro x hx hm
        rw [hfns] at hm
        simp at hm
    · refine ⟨collapseRuns (pySplitlines (joinNL (finalCode r))), by rw [himp2]; simp, ?_⟩
      intro x hx hm
      apply mem_collapseRuns
      simp only [pySplitlines]
      have hP : splitChar nlChar (joinNL (finalCode r))
          = (extractPieces r).2.flatMap (splitChar nlChar) := by
        rw [hfc]
        exact splitChar_joinChar nlChar _ hfns
      rw [hP]
      by_cases hlast : ((extractPieces r).2.flatMap (splitChar nlChar)).getLast?
          = some ([] : PyStr)
      · rw [if_pos hlast]
        exact mem_dropLast_of_ne_nil _ x hlast hx hm
      · rw [if_neg hlast]
        exact hm
  · have himpSec : pySorted (extractPieces r).1.dedup ≠ [] := impSec_ne_nil r himps
    set impSec := pySorted (extractPieces r).1.dedup with hisdef
    set R := (extractPieces r).2.flatMap (splitChar nlChar) with hRdef
    have hclean : ∀ p ∈ impSec, nlChar ∉ p := fun p hp => (impSec_clean r p hp).2
    have hlast_ne : ∀ a, impSec.getLast? = some a → a ≠ [] := by
      intro a ha
      exact (impSec_clean r a (List.mem_of_mem_getLast? ha)).1
    have hfc : finalCode r = (impSec ++ [[]]) ++ (extractPieces r).2 := by
      simp only [finalCode]
      rw [if_pos (by simpa using himps)]
    have hP : splitChar nlChar (joinNL (finalCode r)) = impSec ++ ([] :: R) := by
      rw [hfc]
      have h1 : ((impSec ++ [[]]) ++ (extractPieces r).2) ≠ [] :=
        List.append_ne_nil_of_left_ne_nil
          (List.append_ne_nil_of_left_ne_nil himpSec [[]]) _
      rw [show joinNL ((impSec ++ [[]]) ++ (extractPieces r).2)
            = joinChar nlChar ((impSec ++ [[]]) ++ (extractPieces r).2) from rfl]
      rw [splitChar_joinChar nlChar _ h1, List.flatMap_append, List.flatMap_append]
      rw [flatMap_splitChar_clean impSec hclean]
      rw [show ([[]] : List PyStr).flatMap (splitChar nlChar) = [[]] from rfl]
      rw [List.append_assoc]
      rfl
    have hbound : ∀ ys2 : List PyStr, ∀ a, impSec.getLast? = some a →
        (([] : PyStr) :: ys2).head? ≠ some a := by
      intro ys2 a ha
      rw [List.head?_cons]
      intro he
      exact hlast_ne a ha (by simpa using he.symm)
    simp only [pySplitlines]
    rw [hP]
    by_cases hlast : ((impSec ++ ([] :: R)).getLast? = some ([] : PyStr))
    · rw [if_pos hlast]
      have hd : (impSec ++ ([] :: R)).dropLast = impSec ++ ([] :: R).dropLast := by
        rw [List.dropLast_append]
        rfl
      rw [hd]
      by_cases hR0 : R = []
      · refine ⟨collapseRuns ([] :: R).dropLast, ?_, ?_⟩
        · rw [hR0]
          rw [show (([] : PyStr) :: ([] : List PyStr)).dropLast = [] from rfl]
          rw [collapseRuns_nodup_append impSec [] (impSec_nodup r) (by simp)]
        · intro x hx hm
          rw [hR0] at hm
          simp at hm
      · obtain ⟨r0, R2, hReq⟩ := List.exists_cons_of_ne_nil hR0
        have hdc : (([] : PyStr) :: R).dropLast = [] :: R.dropLast :=
          List.dropLast_cons_of_ne_nil hR0
        rw [hdc]
        refine ⟨collapseRuns ([] :: R.dropLast), ?_, ?_⟩
        · exact collapseRuns_nodup_append impSec ([] :: R.dropLast)
            (impSec_nodup r) (hbound R.dropLast)
        · intro x hx hm
          apply mem_collapseRuns
          have h2 : (([] : PyStr) :: R).getLast? = R.getLast? := by
            rw [hReq]
            exact List.getLast?_cons_cons
          rw [List.getLast?_append, h2] at hlast
          have hRlast : R.getLast? = some ([] : PyStr) := by
            cases hRl : R.getLast? with
            | none =>
              rw [hReq] at hRl
              simp at hRl
            | some v =>
              rw [hRl] at hlast
              simpa using hlast
          exact List.mem_cons_of_mem _ (mem_dropLast_of_ne_nil R x hRlast hx hm)
    · rw [if_neg hlast]
      refine ⟨collapseRuns ([] :: R), ?_, ?_⟩
      · exact collapseRuns_nodup_append impSec ([] :: R) (impSec_nodup r) (hbound R)
      · intro x hx hm
        exact mem_collapseRuns _ x (List.mem_cons_of_mem _ hm)

/-- C9 counterexample: a response with no fenced-block delimiter is not
returned verbatim — extract_code strips surrounding whitespace. -/
theorem C9_extraction_contract_counterexample :
    containsSub fenceKw ([' ', 'x']) = false ∧
    extract_code ([' ', 'x']) ≠ [' ', 'x'] := by
  decide

/-- C9 (amended): a response with no collected fenced block is returned
stripped of surrounding whitespace (otherwise verbatim); for a response
with fenced blocks, the extractor collects exactly the lines classified
as imports across all blocks, the emitted import section is
deduplicated and stands at the front of the output lines, and every
function-definition line of every block appears in the remainder after
the import section. -/
theorem C9_extraction_contract :
    (∀ r : PyStr, getBlocks r = [] → extract_code r = pyStrip r) ∧
    (∀ r : PyStr, getBlocks r ≠ [] →
      (extractPieces r).1
          = (getBlocks r).flatMap (fun b => (splitChar nlChar b).filter isImportLine) ∧
      (pySorted (extractPieces r).1.dedup).Nodup ∧
      (∀ i, i ∈ pySorted (extractPieces r).1.dedup ↔ i ∈ (extractPieces r).1) ∧
      ∃ rest,
        collapseRuns (pySplitlines (joinNL (finalCode r)))
          = pySorted (extractPieces r).1.dedup ++ rest ∧
        extract_code r = joinNL (pySorted (extractPieces r).1.dedup ++ rest) ∧
        (∀ b ∈ getBlocks r, ∀ x ∈ splitChar nlChar b, isDefLine x = true →
            x ∈ rest)) := by
  constructor
  · intro r hb
    simp only [extract_code]
    rw [if_pos hb]
  · intro r hb
    refine ⟨extractPieces_imps r, impSec_nodup r, impSec_mem r, ?_⟩
    obtain ⟨rest, hstruct, hmem⟩ := finalCode_structure r
    refine ⟨rest, hstruct, ?_, ?_⟩
    · simp only [extract_code]
      rw [if_neg hb, hstruct]
    · intro b hbm x hx hdef
      obtain ⟨fn, hfn, hxm⟩ := extractPieces_defs r b hbm x hx hdef
      have hxR : x ∈ (extractPieces r).2.flatMap (splitChar nlChar) :=
        List.mem_flatMap.mpr ⟨fn, hfn, hxm⟩
      have hxne : x ≠ [] := by
        intro he
        rw [he] at hdef
        exact absurd hdef (by decide)
      exact hmem x hxne hxR

/-- C9 witness: the fallback strips a concrete fenceless response, and
a concrete python-fenced response has its import lines collected. -/
theorem C9_extraction_contract_witness :
    extract_code ([' ', 'x']) = pyStrip ([' ', 'x']) ∧
    (extractPieces ("```python\nimport os\ndef f():\n    pass\n```".toList)).1
      = (getBlocks ("```python\nimport os\ndef f():\n    pass\n```".toList)).flatMap
          (fun b => (splitChar nlChar b).filter isImportLine) :=
  ⟨C9_extraction_contract.1 [' ', 'x'] (by decide),
   (C9_extraction_contract.2 ("```python\nimport os\ndef f():\n    pass\n```".toList)
      (by decide)).1⟩

end Hardcoders
